import Mathlib

/-!
Shallow embedding of `log_monitor.py` (HttpLogMonitor): the sliding-window
traffic monitor (`TrafficMonitor`), the periodic statistics accumulator
(`Statistics`) and the ingestion pipeline (`feed_line`), together with
theorems settling the specification claims.

Python integers are modelled as `Int`; Python dicts as association lists
(first occurrence of a key is the binding; keys are unique in every
reachable state); the fixed-capacity `deque` as a list whose length is the
configured capacity.  A Python call that can raise an exception is modelled
by an explicit error flag carrying the state at the raise point
(`TrafficMonitor.check` can raise `ValueError` at `self._ts_list.index(ts)`),
or by `Option` for pure parsing helpers.  The model is faithful for window
sizes `w ≥ 1`; for `w ≤ 0` the Python code raises `IndexError` on an empty
window, a configuration no claim exercises.
-/

/-- Strings are modelled as character lists so that every operation is a
structural recursion the kernel can evaluate. -/
abbrev Str : Type := List Char

/-- Association-list lookup with default 0: models `d[k]` on a Python dict
whose key is known to be present (every caller in the source maintains
`keys(_d) = set(_ts_list)`), and `d.get(k) or 0` otherwise. -/
def dGetD {α : Type} [DecidableEq α] : List (α × Int) → α → Int
  | [], _ => 0
  | (a, v) :: rest, k => if a = k then v else dGetD rest k

/-- Bindings present in the dict: `k ∈ d.keys()`. -/
def dKeys {α : Type} {β : Type} (d : List (α × β)) : List α :=
  d.map (fun p => p.1)

/-- Models `if k in d: d[k] += 1 else: d[k] = 1`
(`Statistics.add` lines 44-47 and `TrafficMonitor.add` lines 105-108). -/
def dUpdate {α : Type} [DecidableEq α] : List (α × Int) → α → List (α × Int)
  | [], k => [(k, 1)]
  | (a, v) :: rest, k =>
    if a = k then (a, v + 1) :: rest else (a, v) :: dUpdate rest k

/-- Models `d.pop(k)`: remove the (unique) binding of `k`. -/
def dErase {α : Type} [DecidableEq α] : List (α × Int) → α → List (α × Int)
  | [], _ => []
  | (a, v) :: rest, k => if a = k then rest else (a, v) :: dErase rest k

/-- Sum of all values of the dict: `sum(d.values())`. -/
def dSum {α : Type} (d : List (α × Int)) : Int :=
  (d.map (fun p => p.2)).sum

/-- Models `bisect.insort(l, a)` (insert after existing equal entries);
the source only calls it when `a ∉ l`. -/
def insort (a : Int) : List Int → List Int
  | [] => [a]
  | b :: l => if a < b then a :: b :: l else b :: insort a l

/-- Models `l.index(a)`: position of the first occurrence, `none` models the
`ValueError` Python raises when `a` is absent. -/
def indexOf? (a : Int) : List Int → Option Nat
  | [] => none
  | b :: l => if b = a then some 0 else (indexOf? a l).map (fun i => i + 1)

/-- Models `l[-1]` on a list known to be nonempty. -/
def lastTs (l : List Int) : Int := l.getLast?.getD 0

/-- Models `l[0]` on a list known to be nonempty. -/
def firstTs (l : List Int) : Int := l.head?.getD 0

/-- Models `deque.append` with `maxlen = n`: append on the right, dropping
from the left once over capacity. -/
def oooPush (n : Nat) (buf : List (Int × Int)) (x : Int × Int) : List (Int × Int) :=
  let b := buf ++ [x]
  b.drop (b.length - n)

/-- An alert transition forwarded to `alert_handler(raised, ts, hits)`:
`raised = true` is a `Raised` transition, `raised = false` a `Cleared` one. -/
structure Alert where
  raised : Bool
  ts : Int
  hits : Int
deriving DecidableEq

/-- State of `HttpLogMonitor.TrafficMonitor` (fields `_w_size`, `_ts_list`,
`_d`, `_hits`, `_max`, `_warn`, `_ooo_buffer_size`, `_ooo_buffer`). -/
structure TrafficMonitor where
  w_size : Int
  ts_list : List Int
  d : List (Int × Int)
  hits : Int
  max : Int
  warn : Bool
  ooo_buffer_size : Nat
  ooo_buffer : List (Int × Int)
deriving DecidableEq

/-- Result of a `TrafficMonitor` method call: the state at return (or at the
raise point), the alert transitions emitted, and whether a `ValueError`
escaped (`_ts_list.index(ts)` in `check`, line 131). -/
structure Step where
  st : TrafficMonitor
  out : List Alert
  err : Bool
deriving DecidableEq

/-- `TrafficMonitor.__init__(monitor, window_size_sec, critical_rate,
ooo_buffer_size)`. -/
def TrafficMonitor.init (w rate : Int) (n : Nat) : TrafficMonitor :=
  { w_size := w
    ts_list := []
    d := []
    hits := 0
    max := rate * w
    warn := false
    ooo_buffer_size := n
    ooo_buffer := List.replicate n (0, 0) }

/-- `TrafficMonitor.window_size`: `self._ts_list[-1] - self._ts_list[0]`. -/
def TrafficMonitor.window_size (m : TrafficMonitor) : Int :=
  lastTs m.ts_list - firstTs m.ts_list

/-- One iteration of the eviction loop body in `check` (lines 123-126):
push the earliest bucket onto the OOO buffer, subtract its hits, drop it. -/
def TrafficMonitor.popFront (m : TrafficMonitor) : TrafficMonitor :=
  match m.ts_list with
  | [] => m
  | t :: rest =>
    let h := dGetD m.d t
    { m with
      ooo_buffer := oooPush m.ooo_buffer_size m.ooo_buffer (t, h)
      hits := m.hits - h
      d := dErase m.d t
      ts_list := rest }

/-- The eviction `while` loop of `check` (lines 122-126), with explicit fuel;
each iteration shortens `_ts_list` by one, so `_ts_list.length` fuel is
exact. -/
def TrafficMonitor.evictGo : Nat → TrafficMonitor → TrafficMonitor
  | 0, m => m
  | Nat.succ fuel, m =>
    if m.window_size > m.w_size - 1 then TrafficMonitor.evictGo fuel m.popFront else m

/-- The eviction loop run to completion. -/
def TrafficMonitor.evict (m : TrafficMonitor) : TrafficMonitor :=
  TrafficMonitor.evictGo m.ts_list.length m

/-- `TrafficMonitor.check_hits(ts, hits)` (lines 148-159): edge-triggered
threshold evaluation; the two `if` statements run in sequence. -/
def TrafficMonitor.check_hits (m : TrafficMonitor) (ts hits : Int) :
    TrafficMonitor × List Alert :=
  let r1 :=
    if m.warn = false ∧ hits > m.max then
      ({ m with warn := true }, [Alert.mk true ts hits])
    else (m, [])
  let r2 :=
    if r1.1.warn = true ∧ hits ≤ r1.1.max then
      ({ r1.1 with warn := false }, r1.2 ++ [Alert.mk false ts hits])
    else r1
  r2

/-- `TrafficMonitor.disorder_check(ts)` (lines 135-146): scan the OOO buffer
oldest-to-newest for the first entry still inside a window ending at `ts`,
reconstruct the historical total and re-evaluate the threshold there; the
`for` loop with `break` is a first-match search.  `self._ts_list.index(ts)`
cannot fail here (`ts` is drawn from `_ts_list`), hence the `getD 0`. -/
def TrafficMonitor.disorder_check (m : TrafficMonitor) (ts : Int) :
    TrafficMonitor × List Alert :=
  match m.ooo_buffer.findIdx? (fun e => 0 < ts - e.1 ∧ ts - e.1 < m.w_size) with
  | none => (m, [])
  | some i =>
    let idx := (indexOf? ts m.ts_list).getD 0
    let hits_after_ts := ((m.ts_list.drop (idx + 1)).map (dGetD m.d)).sum
    let hits_ooo_buffer := ((m.ooo_buffer.drop i).map (fun p => p.2)).sum
    m.check_hits ts (m.hits - hits_after_ts + hits_ooo_buffer)

/-- `TrafficMonitor.check(ts)` (lines 118-133): evict, then — when unarmed
and `ts` landed behind the head — re-evaluate history for every timestamp of
the snapshot slice `_ts_list[_ts_list.index(ts):-1]`, then always evaluate
the live total at the head.  When `ts` was itself evicted, `.index(ts)`
raises `ValueError` (modelled by `err := true`); the loop body of the
disorder re-evaluation (line 131-132) is `disorder_step`. -/
def disorder_step (p : TrafficMonitor × List Alert) (t : Int) :
    TrafficMonitor × List Alert :=
  let r := p.1.disorder_check t
  (r.1, p.2 ++ r.2)

def TrafficMonitor.check (m : TrafficMonitor) (ts : Int) : Step :=
  let m1 := m.evict
  if m1.warn = false ∧ ts ≠ lastTs m1.ts_list then
    match indexOf? ts m1.ts_list with
    | none => Step.mk m1 [] true
    | some i =>
      let targets := (m1.ts_list.drop i).dropLast
      let p := targets.foldl disorder_step (m1, [])
      let r := p.1.check_hits (lastTs p.1.ts_list) p.1.hits
      Step.mk r.1 (p.2 ++ r.2) false
  else
    let r := m1.check_hits (lastTs m1.ts_list) m1.hits
    Step.mk r.1 r.2 false

/-- `TrafficMonitor.add(ts)` (lines 101-110): sorted-unique insert, bucket
increment, total increment, then `check(ts)`. -/
def TrafficMonitor.add (m : TrafficMonitor) (ts : Int) : Step :=
  let l1 := if ts ∈ m.ts_list then m.ts_list else insort ts m.ts_list
  let m0 := { m with ts_list := l1, d := dUpdate m.d ts, hits := m.hits + 1 }
  m0.check ts

/-- Feed a sequence of timestamps through `add`, concatenating the emitted
transitions; a raised `ValueError` aborts the run (uncaught in the source's
main loop). -/
def TrafficMonitor.addSeq (m : TrafficMonitor) : List Int → Step
  | [] => Step.mk m [] false
  | t :: ts =>
    let s := m.add t
    if s.err then s
    else
      let s' := s.st.addSeq ts
      Step.mk s'.st (s.out ++ s'.out) s'.err

/-- Models `set.add(x)`: a Python set as a duplicate-free list, membership
and size being `in` and `len`. -/
def setInsert (l : List Int) (x : Int) : List Int :=
  if x ∈ l then l else x :: l

/-- State of `HttpLogMonitor.Statistics` (fields `_d`, `_ts_set`,
`_period`). -/
structure Statistics where
  d : List (Str × Int)
  ts_set : List Int
  period : Int
deriving DecidableEq

/-- `Statistics.__init__`. -/
def Statistics.init (period : Int) : Statistics :=
  { d := [], ts_set := [], period := period }

/-- `Statistics.reset` (lines 56-59). -/
def Statistics.reset (s : Statistics) : Statistics :=
  { s with d := [], ts_set := [] }

/-- `Statistics.add(ts, section)` (lines 33-47): flush (report + reset) when
the new timestamp is unseen and the distinct-second set is full, then record
the event; the returned option is the flushed report (the section→hits
mapping handed to `report_handler`). -/
def Statistics.add (s : Statistics) (ts : Int) (sect : Str) :
    Statistics × Option (List (Str × Int)) :=
  let flush := ts ∉ s.ts_set ∧ (s.ts_set.length : Int) = s.period
  let r := if flush then (s.reset, some s.d) else (s, none)
  ({ r.1 with ts_set := setInsert r.1.ts_set ts, d := dUpdate r.1.d sect }, r.2)

/-- Association-list write `d[k] = v` over arbitrary values: overwrite the
first binding of `k` or append a new one.  Building a record dict from the
header this way reproduces Python-dict semantics (later duplicate columns
overwrite earlier ones). -/
def dPut {α β : Type} [DecidableEq α] : List (α × β) → α → β → List (α × β)
  | [], k, v => [(k, v)]
  | (a, w) :: rest, k, v =>
    if a = k then (a, v) :: rest else (a, w) :: dPut rest k v

/-- Association-list read `d[k]` over arbitrary values; `none` models
`KeyError`. -/
def dLookup {α β : Type} [DecidableEq α] : List (α × β) → α → Option β
  | [], _ => none
  | (a, w) :: rest, k => if a = k then some w else dLookup rest k

/-- Models `log_line.split(self.csv_sep)` with the separator `,`
(`feed_line` lines 216 and 225): Python `split` on a one-character
separator. -/
def splitComma : Str → List Str
  | [] => [[]]
  | c :: rest =>
    match splitComma rest with
    | [] => [[]]
    | g :: gs => if c = ',' then [] :: g :: gs else (c :: g) :: gs

/-- Header-cell cleanup `i[1:-1]` (`feed_line` line 217): strip the first
and last character. -/
def stripEnds (s : Str) : Str := (s.drop 1).dropLast

/-- Value cleanup `item_val.replace(CHR34, EMPTY)` (`feed_line` line 231):
remove every double-quote character. -/
def stripQuotes (s : Str) : Str :=
  s.filter (fun c => c ≠ '"')

/-- Word character of the regex class `\w` (ASCII model of the source's
pattern, which the log format only exercises on ASCII). -/
def isWordChar (c : Char) : Bool := c.isAlphanum || c = '_'

/-- Whitespace as it can occur in a CSV field of this format. -/
def isSpacePy (c : Char) : Bool := c = ' ' || c = '\t' || c = '\n' || c = '\r'

/-- Models `int(s)` on a decimal string: optional surrounding whitespace and
sign, then digits (`none` models `ValueError`; Python's underscore grouping
is not exercised by the log format and is not modelled). -/
def parseIntPy (s : Str) : Option Int :=
  let digitsVal := fun (l : List Char) =>
    l.foldl (fun acc c => acc * 10 + ((c.toNat : Int) - 48)) 0
  let core := fun (l : List Char) (sign : Int) =>
    if l ≠ [] ∧ l.all Char.isDigit then some (sign * digitsVal l) else none
  match (s.dropWhile isSpacePy).reverse.dropWhile isSpacePy |>.reverse with
  | '-' :: rest => core rest (-1)
  | '+' :: rest => core rest 1
  | l => core l 1

/-- Models `req_pattern.match(request).group(1)` for the source pattern
`\w+ (/\w+)\S* \S*` anchored at the start (`HttpLogItem.__init__`,
line 17): a word-character run, a space, a slash, the captured
word-character run, then the rest of that token and a closing space must
exist (the greedy `\S*` stops at the first space; the trailing `\S*` always
matches).  `none` models the `AttributeError` raised on `.group` of a
failed match.  Whitespace is modelled as the space character, the only one
the request field of this format can contain. -/
def matchSection (l : Str) : Option Str :=
  let w1 := l.takeWhile isWordChar
  if w1.isEmpty then none
  else
    match l.drop w1.length with
    | ' ' :: '/' :: r2 =>
      let w2 := r2.takeWhile isWordChar
      if w2.isEmpty then none
      else
        let r3 := r2.drop w2.length
        if r3.contains ' ' then some ('/' :: w2) else none
    | _ => none

/-- State of the top-level `HttpLogMonitor` (fields `ts_now`, `col_list`,
`statis`, `monitor`); debug-only counters are omitted. -/
structure LogMon where
  ts_now : Option Int
  col_list : List Str
  statis : Statistics
  monitor : TrafficMonitor
deriving DecidableEq

/-- `HttpLogMonitor.__init__(statis_period, traffic_mon_size, critical_rate,
ooo_buffer_size)`. -/
def LogMon.init (statis_period traffic_mon_size critical_rate : Int)
    (ooo_buffer_size : Nat) : LogMon :=
  { ts_now := none
    col_list := []
    statis := Statistics.init statis_period
    monitor := TrafficMonitor.init traffic_mon_size critical_rate ooo_buffer_size }

/-- `HttpLogMonitor.time_update(ts)` (lines 206-212): the `now` watermark
only moves forward. -/
def LogMon.time_update (m : LogMon) (ts : Int) : LogMon :=
  match m.ts_now with
  | none => { m with ts_now := some ts }
  | some t => if ts > t then { m with ts_now := some ts } else m

/-- Observable outcome of one `feed_line` call. -/
inductive FeedOut where
  | header
  | corrupted
  | parse_fail
  | processed (rep : Option (List (Str × Int))) (alerts : List Alert) (err : Bool)
deriving DecidableEq

/-- `HttpLogMonitor.feed_line(log_line)` (lines 214-239): the first line is
consumed as the CSV header; later lines with a field-count mismatch are
dropped with a diagnostic (`corrupted`); otherwise the record dict is built,
`date` and `request` are decoded (`parse_fail` models the propagated
`ValueError`/`KeyError`/`AttributeError`), the watermark advances, and the
event is fed to `Statistics.add` then `TrafficMonitor.add`. -/
def LogMon.feed_line (m : LogMon) (line : Str) : LogMon × FeedOut :=
  if m.col_list.length = 0 then
    ({ m with col_list := (splitComma line).map stripEnds }, FeedOut.header)
  else
    let fields := splitComma line
    if fields.length ≠ m.col_list.length then (m, FeedOut.corrupted)
    else
      let rec0 := (m.col_list.zip (fields.map stripQuotes)).foldl
        (fun d p => dPut d p.1 p.2) []
      match dLookup rec0 "date".toList with
      | none => (m, FeedOut.parse_fail)
      | some dateStr =>
        match parseIntPy dateStr with
        | none => (m, FeedOut.parse_fail)
        | some ts =>
          match dLookup rec0 "request".toList with
          | none => (m, FeedOut.parse_fail)
          | some req =>
            match matchSection req with
            | none => (m, FeedOut.parse_fail)
            | some sect =>
              let m1 := m.time_update ts
              let sr := m1.statis.add ts sect
              let step := m1.monitor.add ts
              ({ m1 with statis := sr.1, monitor := step.st },
               FeedOut.processed sr.2 step.out step.err)

/-- Feed a list of lines in order, returning the final state and the
outcomes in order. -/
def LogMon.feedAll (m : LogMon) : List Str → LogMon × List FeedOut
  | [] => (m, [])
  | line :: rest =>
    let r := m.feed_line line
    let r' := r.1.feedAll rest
    (r'.1, r.2 :: r'.2)


/-! ## Claim C2: edge-triggered hysteresis of `check_hits` -/

/-- C2: edge-triggered hysteresis.  A threshold evaluation `check_hits(ts,
hits)` emits `Raised` exactly when the monitor is unarmed and `hits >
maxHits` (arming it), emits `Cleared` exactly when it is armed and `hits ≤
maxHits` (unarming it), never emits more than one transition, leaves the
armed flag equal to `hits > maxHits`, and `maxHits` is fixed at
construction as `criticalRatePerSecond × windowSize`. -/
theorem check_hits_hysteresis (m : TrafficMonitor) (ts hits w rate : Int) (n : Nat) :
    ((m.check_hits ts hits).2 = [Alert.mk true ts hits] ↔ m.warn = false ∧ hits > m.max) ∧
    ((m.check_hits ts hits).2 = [Alert.mk false ts hits] ↔ m.warn = true ∧ hits ≤ m.max) ∧
    ((m.check_hits ts hits).2 = [] ↔ m.warn = decide (hits > m.max)) ∧
    (m.check_hits ts hits).2.length ≤ 1 ∧
    (m.check_hits ts hits).1.warn = decide (hits > m.max) ∧
    (TrafficMonitor.init w rate n).max = rate * w := by
  by_cases h : hits > m.max
  · cases hw : m.warn <;>
      simp [TrafficMonitor.check_hits, TrafficMonitor.init, h, hw, not_le.mpr h,
        le_of_lt, not_lt.mpr (le_of_lt h)]
  · cases hw : m.warn <;>
      simp [TrafficMonitor.check_hits, TrafficMonitor.init, h, hw, not_lt.mp h]

/-! ## Claim C10: the first line is always consumed as the CSV header -/

/-- C10: implicit header consumption.  Whenever `col_list` is still empty —
in particular on the very first `feed_line` call — the line is consumed as
the CSV header, split on commas with first and last characters stripped
from each cell, whatever its content; it is not parsed as an event and
`ts_now`, the statistics state and the traffic-monitor state are all
unchanged. -/
theorem feed_line_header (m : LogMon) (line : Str) (h : m.col_list = []) :
    m.feed_line line =
      ({ m with col_list := (splitComma line).map stripEnds }, FeedOut.header) := by
  simp [LogMon.feed_line, h]

/-- Witness for C10 at a concrete monitor and line. -/
theorem feed_line_header_witness :
    (LogMon.init 10 120 10 3).col_list = [] ∧
      (LogMon.init 10 120 10 3).feed_line ("a,b").toList =
        ({ LogMon.init 10 120 10 3 with
            col_list := (splitComma ("a,b").toList).map stripEnds }, FeedOut.header) :=
  ⟨rfl, feed_line_header (LogMon.init 10 120 10 3) ("a,b").toList rfl⟩

/-! ## Claim C8: malformed records are dropped without any state change -/

/-- C8: malformed record frame condition.  After the header, a line whose
comma-separated field count differs from the header's column count is
dropped with a diagnostic (`corrupted`), leaving the `now` watermark, the
statistics accumulator and the traffic monitor unchanged — the whole
monitor state is returned as it was. -/
theorem feed_line_corrupted (m : LogMon) (line : Str) (h : m.col_list ≠ [])
    (hlen : (splitComma line).length ≠ m.col_list.length) :
    m.feed_line line = (m, FeedOut.corrupted) := by
  have hc : ¬ m.col_list.length = 0 := by
    simpa [List.length_eq_zero] using h
  simp [LogMon.feed_line, hc, hlen]

/-- Witness for C8 at a concrete monitor and line. -/
theorem feed_line_corrupted_witness :
    ({ LogMon.init 10 120 10 3 with col_list := [("a").toList] } : LogMon).feed_line
        ("x,y").toList =
      ({ LogMon.init 10 120 10 3 with col_list := [("a").toList] }, FeedOut.corrupted) :=
  feed_line_corrupted _ _ (by decide) (by decide)

/-! ## Claim C7: statistics flush policy -/

/-- C7: statistics flush policy.  `Statistics.add(ts, section)` emits a
report exactly when `ts` is not already among the distinct seconds and
their number equals `period`; the emitted report is the pre-flush
section→hits mapping, and both the mapping and the distinct-second set are
cleared before the new event is recorded (so the post state holds exactly
the new event).  Hence every flushed periodic report spans exactly `period`
distinct seconds, and a second already in the current set extends the
current batch (same set, no flush) instead of triggering one. -/
theorem statistics_flush_policy (s : Statistics) (ts : Int) (sect : Str) :
    ((s.add ts sect).2 ≠ none ↔ ts ∉ s.ts_set ∧ (s.ts_set.length : Int) = s.period) ∧
    ((s.add ts sect).2 = none ∨ (s.add ts sect).2 = some s.d) ∧
    (ts ∉ s.ts_set ∧ (s.ts_set.length : Int) = s.period →
      (s.add ts sect).1 =
        { d := dUpdate [] sect, ts_set := [ts], period := s.period }) ∧
    (ts ∈ s.ts_set →
      (s.add ts sect).2 = none ∧ (s.add ts sect).1.ts_set = s.ts_set ∧
        (s.add ts sect).1.d = dUpdate s.d sect) := by
  by_cases hf : ts ∉ s.ts_set ∧ (s.ts_set.length : Int) = s.period
  · refine ⟨by simp [Statistics.add, hf], ?_, ?_, ?_⟩
    · simp [Statistics.add, hf]
    · intro _
      simp [Statistics.add, Statistics.reset, hf, setInsert]
    · intro hmem
      exact absurd hmem hf.1
  · refine ⟨by simp [Statistics.add, hf], ?_, ?_, ?_⟩
    · simp [Statistics.add, hf]
    · intro h
      exact absurd h hf
    · intro hmem
      simp [Statistics.add, hf, setInsert, hmem]

/-- Witness for C7: a full set flushes and is cleared before the new event
is recorded; an already-seen second extends the batch without a flush. -/
theorem statistics_flush_policy_witness :
    ((Statistics.mk [(("a").toList, 2)] [1, 2] 2).add 3 ("b").toList).1 =
        { d := dUpdate [] ("b").toList, ts_set := [3], period := 2 } ∧
      ((Statistics.mk [(("a").toList, 2)] [1, 2] 2).add 1 ("b").toList).2 = none :=
  ⟨(statistics_flush_policy (Statistics.mk [(("a").toList, 2)] [1, 2] 2) 3
      ("b").toList).2.2.1 (by decide),
    ((statistics_flush_policy (Statistics.mk [(("a").toList, 2)] [1, 2] 2) 1
      ("b").toList).2.2.2 (by decide)).1⟩

/-! ## Claim C3: bounded out-of-order correction -/

/-- C3 counterexample: with `windowSize = 3`, `criticalRatePerSecond = 1`
(`maxHits = 3`) and `oooMargin = 1`, the stream `0,0,0,0,3,2` contains one
disordered hit (the final `t = 2`, arriving one second after the head
reached `3`, well within the claimed `windowSize + oooMargin − 1 = 3`
bound), yet its alert trace has four transitions — the ledger
reconstruction appends a spurious-looking `Raised`/`Cleared` pair — while
the same multiset fed in order, `0,0,0,0,2,3`, produces only two.  The
claimed trace equality therefore fails. -/
theorem bounded_correction_counterexample :
    ((TrafficMonitor.init 3 1 1).addSeq [0, 0, 0, 0, 3, 2]).out =
        [Alert.mk true 0 4, Alert.mk false 3 1, Alert.mk true 2 5, Alert.mk false 3 2] ∧
      ((TrafficMonitor.init 3 1 1).addSeq [0, 0, 0, 0, 2, 3]).out =
        [Alert.mk true 0 4, Alert.mk false 3 2] ∧
      ((TrafficMonitor.init 3 1 1).addSeq [0, 0, 0, 0, 3, 2]).out ≠
        ((TrafficMonitor.init 3 1 1).addSeq [0, 0, 0, 0, 2, 3]).out := by
  refine ⟨by decide, by decide, by decide⟩

/-- C3 amended: a disordered hit within `windowSize + oooMargin − 1`
seconds of where it belonged need not reproduce the in-order alert trace in
general, but it does for streams in which the late hit is what pushes a
past window over threshold (the Scenario C shape): with `windowSize = 3`,
`maxHits = 3`, `oooMargin = 1`, the disordered stream `0,0,0,3,2` and its
in-order permutation `0,0,0,2,3` produce identical alert traces, the late
record being corrected through the eviction ledger. -/
theorem bounded_correction_scenario_c :
    ((TrafficMonitor.init 3 1 1).addSeq [0, 0, 0, 3, 2]).out =
        ((TrafficMonitor.init 3 1 1).addSeq [0, 0, 0, 2, 3]).out ∧
      ((TrafficMonitor.init 3 1 1).addSeq [0, 0, 0, 3, 2]).out =
        [Alert.mk true 2 4, Alert.mk false 3 2] := by
  refine ⟨by decide, by decide⟩

/-! ## Claim C4: too-late records -/

/-- C4: too-late record behaviour at `TrafficMonitor` level.  With the
default configuration (`windowSize 120`, rate `10`, ledger capacity `3`),
after hits at `1000, 1130, 1260` the timestamp `500` lies outside both the
live window (`[1260]`) and the ledger's coverage (entries at `1000, 1130`
and a zero dummy, none within a window ending at `500`).  The claim says
such an insertion completes normally with the alert state unchanged;
instead the inserted timestamp is itself evicted and the unarmed monitor
reaches `self._ts_list.index(ts)` with `ts` absent, raising an uncaught
`ValueError` (`err = true`), while the first three insertions complete
normally. -/
theorem too_late_record_raises :
    ((TrafficMonitor.init 120 10 3).addSeq [1000, 1130, 1260]).err = false ∧
      ((TrafficMonitor.init 120 10 3).addSeq [1000, 1130, 1260, 500]).err = true ∧
      ((TrafficMonitor.init 120 10 3).addSeq [1000, 1130, 1260, 500]).out = [] := by
  refine ⟨by decide, by decide, by decide⟩

/-- C4 at `feed_line` level: the same scenario fed as CSV lines.  The late
record's hit is still counted by the statistics accumulator (`500` enters
the distinct-second set) — the statistics claim holds — but the call does
not complete normally: the `ValueError` escapes `TrafficMonitor.add`. -/
theorem too_late_record_raises_feed_line :
    ((LogMon.init 10 120 10 3).feedAll
        [("\"remotehost\",\"rfc931\",\"authuser\",\"date\",\"request\",\"status\",\"bytes\"").toList,
         ("\"10.0.0.1\",\"-\",\"apache\",1000,\"GET /api/help HTTP/1.0\",200,1234").toList,
         ("\"10.0.0.1\",\"-\",\"apache\",1130,\"GET /api/help HTTP/1.0\",200,1234").toList,
         ("\"10.0.0.1\",\"-\",\"apache\",1260,\"GET /api/help HTTP/1.0\",200,1234").toList,
         ("\"10.0.0.1\",\"-\",\"apache\",500,\"GET /api/help HTTP/1.0\",200,1234").toList]).2 =
      [FeedOut.header,
       FeedOut.processed none [] false,
       FeedOut.processed none [] false,
       FeedOut.processed none [] false,
       FeedOut.processed none [] true] ∧
    (500 : Int) ∈ ((LogMon.init 10 120 10 3).feedAll
        [("\"remotehost\",\"rfc931\",\"authuser\",\"date\",\"request\",\"status\",\"bytes\"").toList,
         ("\"10.0.0.1\",\"-\",\"apache\",1000,\"GET /api/help HTTP/1.0\",200,1234").toList,
         ("\"10.0.0.1\",\"-\",\"apache\",1130,\"GET /api/help HTTP/1.0\",200,1234").toList,
         ("\"10.0.0.1\",\"-\",\"apache\",1260,\"GET /api/help HTTP/1.0\",200,1234").toList,
         ("\"10.0.0.1\",\"-\",\"apache\",500,\"GET /api/help HTTP/1.0\",200,1234").toList]).1.statis.ts_set := by
  refine ⟨by decide, by decide⟩

/-! ## Closed forms for repeated insertions at one timestamp -/

/-- Splitting a run of `add` calls at an arbitrary point. -/
theorem addSeq_append (m : TrafficMonitor) (l1 l2 : List Int) :
    m.addSeq (l1 ++ l2) =
      (if (m.addSeq l1).err then m.addSeq l1
       else
        Step.mk ((m.addSeq l1).st.addSeq l2).st
          ((m.addSeq l1).out ++ ((m.addSeq l1).st.addSeq l2).out)
          ((m.addSeq l1).st.addSeq l2).err) := by
  induction l1 generalizing m with
  | nil => simp [TrafficMonitor.addSeq]
  | cons t ts ih =>
    simp only [List.cons_append, TrafficMonitor.addSeq]
    by_cases he : (m.add t).err
    · simp [he, TrafficMonitor.addSeq]
    · by_cases he2 : ((m.add t).st.addSeq ts).err
      · simp [he, he2, ih]
      · simp [he, he2, ih, List.append_assoc]

/-- One `add` at the single retained timestamp: no eviction, no disorder
branch, just a bucket/total increment followed by a threshold check. -/
theorem add_const (w t k M : Int) (b : Bool) (nb : Nat) (buf : List (Int × Int))
    (hw : 1 ≤ w) :
    (TrafficMonitor.mk w [t] [(t, k)] k M b nb buf).add t =
      Step.mk
        (TrafficMonitor.check_hits
          (TrafficMonitor.mk w [t] [(t, k + 1)] (k + 1) M b nb buf) t (k + 1)).1
        (TrafficMonitor.check_hits
          (TrafficMonitor.mk w [t] [(t, k + 1)] (k + 1) M b nb buf) t (k + 1)).2
        false := by
  have h0 : ¬ ((0 : Int) > w - 1) := by omega
  simp [TrafficMonitor.add, TrafficMonitor.check, TrafficMonitor.evict,
    TrafficMonitor.evictGo, TrafficMonitor.window_size, lastTs, firstTs,
    dUpdate, h0]

/-- A run of `n` further hits at the same timestamp while armed with the
total already above threshold emits nothing and just counts. -/
theorem addSeq_rep_armed (w t M : Int) (nb : Nat) (buf : List (Int × Int))
    (hw : 1 ≤ w) :
    ∀ (n : Nat) (k : Int), M < k →
      (TrafficMonitor.mk w [t] [(t, k)] k M true nb buf).addSeq (List.replicate n t) =
        Step.mk (TrafficMonitor.mk w [t] [(t, k + n)] (k + n) M true nb buf) [] false := by
  intro n
  induction n with
  | zero => intro k hk; simp [TrafficMonitor.addSeq]
  | succ n ih =>
    intro k hk
    rw [List.replicate_succ]
    simp only [TrafficMonitor.addSeq]
    rw [add_const w t k M true nb buf hw]
    have hch : TrafficMonitor.check_hits
        (TrafficMonitor.mk w [t] [(t, k + 1)] (k + 1) M true nb buf) t (k + 1) =
        (TrafficMonitor.mk w [t] [(t, k + 1)] (k + 1) M true nb buf, []) := by
      simp [TrafficMonitor.check_hits, show ¬ (k + 1 ≤ M) by omega]
    simp only [hch]
    rw [ih (k + 1) (by omega)]
    have harith : k + 1 + (n : Int) = k + ((n : Nat) + 1 : Nat) := by
      push_cast
      ring
    simp [harith]

/-- A run of `n` hits at the single retained timestamp starting unarmed at
or below threshold: the total just counts up, and exactly one `Raised` is
emitted, at the hit that first exceeds the threshold (with `hits = maxHits
+ 1`), if the run gets that far. -/
theorem addSeq_rep_unarmed (w t M : Int) (nb : Nat) (buf : List (Int × Int))
    (hw : 1 ≤ w) :
    ∀ (n : Nat) (k : Int), k ≤ M →
      (TrafficMonitor.mk w [t] [(t, k)] k M false nb buf).addSeq (List.replicate n t) =
        Step.mk
          (TrafficMonitor.mk w [t] [(t, k + n)] (k + n) M (decide (M < k + n)) nb buf)
          (if M < k + (n : Int) then [Alert.mk true t (M + 1)] else []) false := by
  intro n
  induction n with
  | zero =>
    intro k hk
    simp [TrafficMonitor.addSeq, show ¬ (M < k) by omega]
  | succ n ih =>
    intro k hk
    rw [List.replicate_succ]
    simp only [TrafficMonitor.addSeq]
    rw [add_const w t k M false nb buf hw]
    by_cases hcross : M < k + 1
    · have hk1 : k = M := by omega
      have hch : TrafficMonitor.check_hits
          (TrafficMonitor.mk w [t] [(t, k + 1)] (k + 1) M false nb buf) t (k + 1) =
          (TrafficMonitor.mk w [t] [(t, k + 1)] (k + 1) M true nb buf,
            [Alert.mk true t (k + 1)]) := by
        simp [TrafficMonitor.check_hits, hcross, show ¬ (k + 1 ≤ M) by omega]
      simp only [hch]
      rw [addSeq_rep_armed w t M nb buf hw n (k + 1) (by omega)]
      have harith : k + 1 + (n : Int) = k + ((n : Nat) + 1 : Nat) := by
        push_cast
        ring
      have hlt : M < k + ((n : Nat) + 1 : Nat) := by
        push_cast
        omega
      simp [harith, hlt, hk1]
      omega
    · have hch : TrafficMonitor.check_hits
          (TrafficMonitor.mk w [t] [(t, k + 1)] (k + 1) M false nb buf) t (k + 1) =
          (TrafficMonitor.mk w [t] [(t, k + 1)] (k + 1) M false nb buf, []) := by
        simp [TrafficMonitor.check_hits, hcross]
      simp only [hch]
      rw [ih (k + 1) (by omega)]
      have harith : k + 1 + (n : Int) = k + ((n : Nat) + 1 : Nat) := by
        push_cast
        ring
      simp [harith]

/-- Scenario B in closed form: 1201 hits at `t = 0` then 1201 hits at
`t = 120`, with `windowSize 120` and rate `10` (`maxHits 1200`). -/
theorem scenarioB_closed_form :
    (TrafficMonitor.init 120 10 3).addSeq
        (List.replicate 1201 0 ++ List.replicate 1201 120) =
      Step.mk
        (TrafficMonitor.mk 120 [120] [(120, 1201)] 1201 1200 true 3
          [(0, 0), (0, 0), (0, 1201)])
        [Alert.mk true 0 1201, Alert.mk false 120 1, Alert.mk true 120 1201]
        false := by
  have h1 : (TrafficMonitor.init 120 10 3).add 0 =
      Step.mk
        (TrafficMonitor.mk 120 [0] [(0, 1)] 1 1200 false 3 [(0, 0), (0, 0), (0, 0)])
        [] false := by decide
  have h2 := addSeq_rep_unarmed 120 0 1200 3 [(0, 0), (0, 0), (0, 0)]
    (by norm_num) 1200 1 (by norm_num)
  norm_num at h2
  have h3 : (TrafficMonitor.mk 120 [0] [(0, 1201)] 1201 1200 true 3
        [(0, 0), (0, 0), (0, 0)]).add 120 =
      Step.mk
        (TrafficMonitor.mk 120 [120] [(120, 1)] 1 1200 false 3
          [(0, 0), (0, 0), (0, 1201)])
        [Alert.mk false 120 1] false := by decide
  have h4 := addSeq_rep_unarmed 120 120 1200 3 [(0, 0), (0, 0), (0, 1201)]
    (by norm_num) 1200 1 (by norm_num)
  norm_num at h4
  have hrep1 : (List.replicate 1201 (0 : Int)) = 0 :: List.replicate 1200 0 := by
    rw [show (1201 : Nat) = 1200 + 1 from rfl, List.replicate_succ]
  have hrep2 : (List.replicate 1201 (120 : Int)) = 120 :: List.replicate 1200 120 := by
    rw [show (1201 : Nat) = 1200 + 1 from rfl, List.replicate_succ]
  have hrun1 : (TrafficMonitor.init 120 10 3).addSeq (List.replicate 1201 0) =
      Step.mk
        (TrafficMonitor.mk 120 [0] [(0, 1201)] 1201 1200 true 3
          [(0, 0), (0, 0), (0, 0)])
        [Alert.mk true 0 1201] false := by
    rw [hrep1]
    generalize hr : List.replicate 1200 (0 : Int) = rest
    rw [hr] at h2
    simp only [TrafficMonitor.addSeq]
    rw [h1]
    simp [h2]
  have hrun2 : (TrafficMonitor.mk 120 [0] [(0, 1201)] 1201 1200 true 3
        [(0, 0), (0, 0), (0, 0)]).addSeq (List.replicate 1201 120) =
      Step.mk
        (TrafficMonitor.mk 120 [120] [(120, 1201)] 1201 1200 true 3
          [(0, 0), (0, 0), (0, 1201)])
        [Alert.mk false 120 1, Alert.mk true 120 1201] false := by
    rw [hrep2]
    generalize hr : List.replicate 1200 (120 : Int) = rest
    rw [hr] at h4
    simp only [TrafficMonitor.addSeq]
    rw [h3]
    simp [h4]
  rw [addSeq_append, hrun1, hrun2]
  simp

/-! ## Claim C9: the Scenario B alert trace -/

/-- C9 counterexample: in Scenario B (windowSize 120, rate 10, 1201 hits at
`t = 0` then 1201 at `t = 120`) the run emits exactly three transitions and
none of them is at `t = 1` — the disarm the claim places at `t = 1` is in
fact emitted at `t = 120`, and no second disarm occurs at all. -/
theorem scenarioB_counterexample :
    ((TrafficMonitor.init 120 10 3).addSeq
        (List.replicate 1201 0 ++ List.replicate 1201 120)).out =
      [Alert.mk true 0 1201, Alert.mk false 120 1, Alert.mk true 120 1201] ∧
    (((TrafficMonitor.init 120 10 3).addSeq
        (List.replicate 1201 0 ++ List.replicate 1201 120)).out.all
      (fun a => decide (a.ts ≠ 1))) = true ∧
    ((TrafficMonitor.init 120 10 3).addSeq
        (List.replicate 1201 0 ++ List.replicate 1201 120)).out.length = 3 := by
  rw [scenarioB_closed_form]
  refine ⟨rfl, by decide, rfl⟩

/-- C9 amended: in Scenario B the alert is raised once as the `t = 0` batch
reaches 1201 hits, cleared at `t = 120` when the first hit there slides the
window and the total drops to that single hit, and raised again as the
`t = 120` batch reaches 1201 hits; the stream ends with the monitor still
armed — no second disarm occurs, and no transition is emitted at `t = 1`. -/
theorem scenarioB_trace :
    ((TrafficMonitor.init 120 10 3).addSeq
        (List.replicate 1201 0 ++ List.replicate 1201 120)) =
      Step.mk
        (TrafficMonitor.mk 120 [120] [(120, 1201)] 1201 1200 true 3
          [(0, 0), (0, 0), (0, 1201)])
        [Alert.mk true 0 1201, Alert.mk false 120 1, Alert.mk true 120 1201]
        false ∧
    ((TrafficMonitor.init 120 10 3).addSeq
        (List.replicate 1201 0 ++ List.replicate 1201 120)).st.warn = true := by
  refine ⟨scenarioB_closed_form, ?_⟩
  rw [scenarioB_closed_form]

/-! ## Order and dictionary lemmas -/

/-- Strictly increasing list of timestamps, as a computable predicate. -/
def sortedLt : List Int → Bool
  | [] => true
  | [_] => true
  | a :: b :: l => decide (a < b) && sortedLt (b :: l)

theorem sortedLt_tail {a : Int} {l : List Int} (h : sortedLt (a :: l) = true) :
    sortedLt l = true := by
  cases l with
  | nil => rfl
  | cons b l' =>
    have h' := h
    simp only [sortedLt, Bool.and_eq_true, decide_eq_true_eq] at h'
    exact h'.2

theorem sortedLt_head_lt {a : Int} {l : List Int} (h : sortedLt (a :: l) = true) :
    ∀ b ∈ l, a < b := by
  induction l generalizing a with
  | nil => intro b hb; cases hb
  | cons c l' ih =>
    intro b hb
    have h' : a < c ∧ sortedLt (c :: l') = true := by
      simpa [sortedLt] using h
    rcases List.mem_cons.mp hb with rfl | hb
    · exact h'.1
    · exact lt_trans h'.1 (ih h'.2 b hb)

theorem sortedLt_cons {b : Int} {l : List Int} :
    sortedLt (b :: l) = true ↔ (∀ x ∈ l, b < x) ∧ sortedLt l = true := by
  constructor
  · intro h
    exact ⟨sortedLt_head_lt h, sortedLt_tail h⟩
  · rintro ⟨h1, h2⟩
    cases l with
    | nil => rfl
    | cons c l' =>
      simp only [sortedLt, Bool.and_eq_true, decide_eq_true_eq]
      exact ⟨h1 c (List.mem_cons_self c l'), h2⟩

/-- A strictly sorted list has no duplicates. -/
theorem sortedLt_nodup : ∀ {l : List Int}, sortedLt l = true → l.Nodup := by
  intro l
  induction l with
  | nil => intro _; exact List.nodup_nil
  | cons a l ih =>
    intro h
    rcases sortedLt_cons.mp h with ⟨h1, h2⟩
    refine List.nodup_cons.mpr ⟨fun hmem => ?_, ih h2⟩
    exact absurd rfl (ne_of_gt (h1 a hmem))

theorem mem_insort {a t : Int} : ∀ {l : List Int}, t ∈ insort a l ↔ t = a ∨ t ∈ l := by
  intro l
  induction l with
  | nil => simp [insort]
  | cons b l ih =>
    by_cases hab : a < b
    · simp [insort, hab]
    · simp only [insort, if_neg hab, List.mem_cons, ih]
      tauto

theorem sortedLt_insort {a : Int} :
    ∀ {l : List Int}, sortedLt l = true → a ∉ l → sortedLt (insort a l) = true := by
  intro l
  induction l with
  | nil => intro _ _; rfl
  | cons b l ih =>
    intro h hna
    have hne : a ≠ b := fun hab => hna (hab ▸ List.mem_cons_self b l)
    have hnl : a ∉ l := fun hmem => hna (List.mem_cons_of_mem b hmem)
    by_cases hab : a < b
    · show sortedLt (if a < b then a :: b :: l else b :: insort a l) = true
      rw [if_pos hab]
      refine sortedLt_cons.mpr ⟨?_, h⟩
      intro x hx
      rcases List.mem_cons.mp hx with rfl | hx
      · exact hab
      · exact lt_trans hab (sortedLt_head_lt h x hx)
    · have hba : b < a := by
        rcases lt_trichotomy a b with h1 | h1 | h1
        · exact absurd h1 hab
        · exact absurd h1 hne
        · exact h1
      show sortedLt (if a < b then a :: b :: l else b :: insort a l) = true
      rw [if_neg hab]
      refine sortedLt_cons.mpr ⟨?_, ih (sortedLt_tail h) hnl⟩
      intro x hx
      rcases mem_insort.mp hx with rfl | hx
      · exact hba
      · exact sortedLt_head_lt h x hx

theorem dKeys_dUpdate_mem {α : Type} [DecidableEq α] {d : List (α × Int)} {k t : α} :
    t ∈ dKeys (dUpdate d k) ↔ t ∈ dKeys d ∨ t = k := by
  induction d with
  | nil => simp [dUpdate, dKeys]
  | cons p rest ih =>
    obtain ⟨a, v⟩ := p
    by_cases hak : a = k
    · subst hak
      simp [dUpdate, dKeys]
      tauto
    · simp only [dUpdate, if_neg hak, dKeys, List.map_cons, List.mem_cons] at *
      tauto

theorem dKeys_cons {α : Type} {β : Type} (p : α × β) (rest : List (α × β)) :
    dKeys (p :: rest) = p.1 :: dKeys rest := rfl

theorem dKeys_dUpdate_of_mem {α : Type} [DecidableEq α] {d : List (α × Int)} {k : α}
    (h : k ∈ dKeys d) : dKeys (dUpdate d k) = dKeys d := by
  induction d with
  | nil => cases h
  | cons p rest ih =>
    obtain ⟨a, v⟩ := p
    by_cases hak : a = k
    · subst hak
      simp [dUpdate, dKeys]
    · have h' : k ∈ dKeys rest := by
        rw [dKeys_cons] at h
        rcases List.mem_cons.mp h with h1 | h1
        · exact absurd h1.symm hak
        · exact h1
      simp only [dUpdate, if_neg hak, dKeys_cons]
      rw [ih h']

theorem dKeys_dUpdate_of_not_mem {α : Type} [DecidableEq α] {d : List (α × Int)} {k : α}
    (h : k ∉ dKeys d) : dKeys (dUpdate d k) = dKeys d ++ [k] := by
  induction d with
  | nil => simp [dUpdate, dKeys]
  | cons p rest ih =>
    obtain ⟨a, v⟩ := p
    rw [dKeys_cons] at h
    have hak : ¬ a = k := by
      intro hak
      exact h (hak ▸ List.mem_cons_self a (dKeys rest))
    have h' : k ∉ dKeys rest := fun hmem => h (List.mem_cons_of_mem a hmem)
    simp only [dUpdate, if_neg hak, dKeys_cons, List.cons_append]
    rw [ih h']

theorem dSum_dUpdate {α : Type} [DecidableEq α] (d : List (α × Int)) (k : α) :
    dSum (dUpdate d k) = dSum d + 1 := by
  induction d with
  | nil => simp [dUpdate, dSum]
  | cons p rest ih =>
    obtain ⟨a, v⟩ := p
    by_cases hak : a = k
    · simp [dUpdate, hak, dSum]
      ring
    · simp only [dUpdate, if_neg hak, dSum, List.map_cons, List.sum_cons] at *
      omega

theorem dGetD_eq_zero {α : Type} [DecidableEq α] {d : List (α × Int)} {k : α}
    (h : k ∉ dKeys d) : dGetD d k = 0 := by
  induction d with
  | nil => rfl
  | cons p rest ih =>
    obtain ⟨a, v⟩ := p
    rw [dKeys_cons] at h
    have hak : ¬ a = k := by
      intro hak
      exact h (hak ▸ List.mem_cons_self a (dKeys rest))
    have h' : k ∉ dKeys rest := fun hmem => h (List.mem_cons_of_mem a hmem)
    simp only [dGetD, if_neg hak]
    exact ih h'

theorem dSum_dErase {α : Type} [DecidableEq α] (d : List (α × Int)) (k : α) :
    dSum (dErase d k) = dSum d - dGetD d k := by
  induction d with
  | nil => simp [dErase, dSum, dGetD]
  | cons p rest ih =>
    obtain ⟨a, v⟩ := p
    by_cases hak : a = k
    · subst hak
      simp [dErase, dSum, dGetD]
    · simp only [dErase, dSum, dGetD, if_neg hak, List.map_cons, List.sum_cons] at *
      omega

theorem dKeys_dErase_sublist {α : Type} [DecidableEq α] (d : List (α × Int)) (k : α) :
    (dKeys (dErase d k)).Sublist (dKeys d) := by
  induction d with
  | nil => simp [dErase, dKeys]
  | cons p rest ih =>
    obtain ⟨a, v⟩ := p
    by_cases hak : a = k
    · simp only [dErase, if_pos hak, dKeys_cons]
      exact List.sublist_cons_self a (dKeys rest)
    · simp only [dErase, if_neg hak, dKeys_cons]
      exact ih.cons₂ a

theorem mem_dKeys_dErase_of_ne {α : Type} [DecidableEq α] {d : List (α × Int)} {k t : α}
    (hne : t ≠ k) (h : t ∈ dKeys d) : t ∈ dKeys (dErase d k) := by
  induction d with
  | nil => cases h
  | cons p rest ih =>
    obtain ⟨a, v⟩ := p
    rw [dKeys_cons] at h
    by_cases hak : a = k
    · subst hak
      rcases List.mem_cons.mp h with h1 | h1
      · exact absurd h1 hne
      · simpa [dErase] using h1
    · rcases List.mem_cons.mp h with h1 | h1
      · subst h1
        simp only [dErase, if_neg hak, dKeys_cons]
        exact List.mem_cons_self t _
      · simp only [dErase, if_neg hak, dKeys_cons]
        exact List.mem_cons_of_mem a (ih h1)

theorem not_mem_dKeys_dErase {α : Type} [DecidableEq α] {d : List (α × Int)} {k : α}
    (h : (dKeys d).Nodup) : k ∉ dKeys (dErase d k) := by
  induction d with
  | nil => simp [dErase, dKeys]
  | cons p rest ih =>
    obtain ⟨a, v⟩ := p
    rw [dKeys_cons] at h
    have h' := List.nodup_cons.mp h
    by_cases hak : a = k
    · subst hak
      simpa [dErase] using h'.1
    · simp only [dErase, if_neg hak, dKeys_cons, List.mem_cons]
      rintro (rfl | hmem)
      · exact hak rfl
      · exact ih h'.2 hmem

/-! ## Claim C5: the `add` state invariant -/

/-- The `TrafficMonitor` state invariant of the data model: `_ts_list` is
strictly increasing (hence has distinct entries), the key set of the bucket
map `_d` equals the set of elements of `_ts_list`, and `_hits` is the sum
of all bucket hit counts. -/
def Inv5 (m : TrafficMonitor) : Prop :=
  sortedLt m.ts_list = true ∧
  dKeys m.d ⊆ m.ts_list ∧
  m.ts_list ⊆ dKeys m.d ∧
  (dKeys m.d).Nodup ∧
  m.hits = dSum m.d

theorem popFront_fields (m : TrafficMonitor) :
    m.popFront.w_size = m.w_size ∧ m.popFront.max = m.max ∧
      m.popFront.warn = m.warn ∧ m.popFront.ooo_buffer_size = m.ooo_buffer_size := by
  obtain ⟨w, tl, d, hh, mx, wn, nb, buf⟩ := m
  cases tl <;> simp [TrafficMonitor.popFront]

theorem popFront_inv {m : TrafficMonitor} (h : Inv5 m) : Inv5 m.popFront := by
  obtain ⟨hs, hk1, hk2, hnd, hsum⟩ := h
  obtain ⟨w, tl, d, hh, mx, wn, nb, buf⟩ := m
  cases tl with
  | nil => exact ⟨hs, hk1, hk2, hnd, hsum⟩
  | cons t rest =>
    simp only [TrafficMonitor.popFront]
    refine ⟨sortedLt_tail hs, ?_, ?_, ?_, ?_⟩
    · intro x hx
      have hxd : x ∈ dKeys d := (dKeys_dErase_sublist d t).subset hx
      have hxl : x ∈ t :: rest := hk1 hxd
      rcases List.mem_cons.mp hxl with rfl | hxr
      · exact absurd hx (not_mem_dKeys_dErase hnd)
      · exact hxr
    · intro x hx
      have hxl : x ∈ t :: rest := List.mem_cons_of_mem t hx
      have hxd : x ∈ dKeys d := hk2 hxl
      have hne : x ≠ t := ne_of_gt (sortedLt_head_lt hs x hx)
      exact mem_dKeys_dErase_of_ne hne hxd
    · exact List.Nodup.sublist (dKeys_dErase_sublist d t) hnd
    · simp only at hsum
      rw [dSum_dErase, hsum]

theorem evictGo_inv : ∀ (fuel : Nat) {m : TrafficMonitor},
    Inv5 m → Inv5 (TrafficMonitor.evictGo fuel m) := by
  intro fuel
  induction fuel with
  | zero => intro m h; exact h
  | succ fuel ih =>
    intro m h
    simp only [TrafficMonitor.evictGo]
    by_cases hc : m.window_size > m.w_size - 1
    · rw [if_pos hc]
      exact ih (popFront_inv h)
    · rw [if_neg hc]
      exact h

theorem evictGo_fields : ∀ (fuel : Nat) (m : TrafficMonitor),
    (TrafficMonitor.evictGo fuel m).w_size = m.w_size ∧
      (TrafficMonitor.evictGo fuel m).max = m.max ∧
      (TrafficMonitor.evictGo fuel m).warn = m.warn ∧
      (TrafficMonitor.evictGo fuel m).ooo_buffer_size = m.ooo_buffer_size := by
  intro fuel
  induction fuel with
  | zero => intro m; exact ⟨rfl, rfl, rfl, rfl⟩
  | succ fuel ih =>
    intro m
    simp only [TrafficMonitor.evictGo]
    by_cases hc : m.window_size > m.w_size - 1
    · rw [if_pos hc]
      obtain ⟨h1, h2, h3, h4⟩ := ih m.popFront
      obtain ⟨g1, g2, g3, g4⟩ := popFront_fields m
      exact ⟨h1.trans g1, h2.trans g2, h3.trans g3, h4.trans g4⟩
    · rw [if_neg hc]
      exact ⟨rfl, rfl, rfl, rfl⟩

theorem evictGo_span : ∀ (fuel : Nat) (m : TrafficMonitor),
    m.ts_list.length ≤ fuel → 1 ≤ m.w_size →
      (TrafficMonitor.evictGo fuel m).window_size ≤ m.w_size - 1 := by
  intro fuel
  induction fuel with
  | zero =>
    intro m hlen hw
    have hnil : m.ts_list = [] := List.eq_nil_of_length_eq_zero (Nat.le_zero.mp hlen)
    simp [TrafficMonitor.evictGo, TrafficMonitor.window_size, hnil, lastTs, firstTs]
    omega
  | succ fuel ih =>
    intro m hlen hw
    simp only [TrafficMonitor.evictGo]
    by_cases hc : m.window_size > m.w_size - 1
    · rw [if_pos hc]
      cases hts : m.ts_list with
      | nil =>
        exfalso
        have : m.window_size = 0 := by
          simp [TrafficMonitor.window_size, hts, lastTs, firstTs]
        omega
      | cons t rest =>
        have hlen' : m.popFront.ts_list.length ≤ fuel := by
          obtain ⟨w, tl, d, hh, mx, wn, nb, buf⟩ := m
          simp only at hts
          subst hts
          simp only [TrafficMonitor.popFront]
          simpa using Nat.le_of_succ_le_succ (by simpa using hlen)
        have hw' : 1 ≤ m.popFront.w_size := by
          rw [(popFront_fields m).1]
          exact hw
        have := ih m.popFront hlen' hw'
        rwa [(popFront_fields m).1] at this
    · rw [if_neg hc]
      omega

theorem check_hits_st (m : TrafficMonitor) (ts h : Int) :
    ∃ b, (m.check_hits ts h).1 = { m with warn := b } := by
  unfold TrafficMonitor.check_hits
  by_cases h1 : m.warn = false ∧ h > m.max
  · by_cases h2 : h ≤ m.max
    · simp [h1, h2]
    · simp [h1, h2]
  · by_cases h2 : m.warn = true ∧ h ≤ m.max
    · simp [h1, h2]
    · simp only [if_neg h1, if_neg h2]
      exact ⟨m.warn, rfl⟩

theorem disorder_check_st (m : TrafficMonitor) (t : Int) :
    ∃ b, (m.disorder_check t).1 = { m with warn := b } := by
  unfold TrafficMonitor.disorder_check
  cases m.ooo_buffer.findIdx? (fun e => 0 < t - e.1 ∧ t - e.1 < m.w_size) with
  | none => exact ⟨m.warn, rfl⟩
  | some i => exact check_hits_st m t _

theorem disorder_step_eq (p : TrafficMonitor × List Alert) (t : Int) :
    disorder_step p t = ((p.1.disorder_check t).1, p.2 ++ (p.1.disorder_check t).2) := rfl

theorem disorder_fold_st (targets : List Int) :
    ∀ (m : TrafficMonitor) (acc : List Alert),
      ∃ b, (targets.foldl disorder_step (m, acc)).1 = { m with warn := b } := by
  induction targets with
  | nil => intro m acc; exact ⟨m.warn, rfl⟩
  | cons t ts ih =>
    intro m acc
    rw [List.foldl_cons, disorder_step_eq]
    obtain ⟨b, hb⟩ := disorder_check_st m t
    rw [hb]
    obtain ⟨b', hb'⟩ := ih { m with warn := b } (acc ++ (m.disorder_check t).2)
    rw [hb']
    exact ⟨b', rfl⟩

/-- The state reached by `check` differs from the evicted state only in the
`_warn` flag, except on the `ValueError` path, where it is the evicted
state itself. -/
theorem check_st (m : TrafficMonitor) (ts : Int) :
    ∃ b, (m.check ts).st = { m.evict with warn := b } := by
  unfold TrafficMonitor.check
  by_cases hbr : m.evict.warn = false ∧ ts ≠ lastTs m.evict.ts_list
  · rw [if_pos hbr]
    cases hidx : indexOf? ts m.evict.ts_list with
    | none => exact ⟨m.evict.warn, rfl⟩
    | some i =>
      obtain ⟨b, hb⟩ := disorder_fold_st ((m.evict.ts_list.drop i).dropLast) m.evict []
      obtain ⟨b', hb'⟩ := check_hits_st
        (List.foldl disorder_step (m.evict, []) ((m.evict.ts_list.drop i).dropLast)).1
        (lastTs (List.foldl disorder_step (m.evict, [])
          ((m.evict.ts_list.drop i).dropLast)).1.ts_list)
        (List.foldl disorder_step (m.evict, [])
          ((m.evict.ts_list.drop i).dropLast)).1.hits
      refine ⟨b', ?_⟩
      have h2 : ((List.foldl disorder_step (m.evict, [])
          ((m.evict.ts_list.drop i).dropLast)).1.check_hits
            (lastTs (List.foldl disorder_step (m.evict, [])
              ((m.evict.ts_list.drop i).dropLast)).1.ts_list)
            (List.foldl disorder_step (m.evict, [])
              ((m.evict.ts_list.drop i).dropLast)).1.hits).1 =
          { m.evict with warn := b' } := by
        rw [hb', hb]
      exact h2
  · rw [if_neg hbr]
    exact check_hits_st m.evict (lastTs m.evict.ts_list) m.evict.hits

/-- C5: the monitor state invariant is preserved by every `add` call —
`_ts_list` stays strictly increasing with distinct entries, the key set of
the bucket map `_d` stays equal to the set of elements of `_ts_list`,
`_hits` stays equal to the sum of all bucket hit counts — and after the
call the window span `_ts_list.last − _ts_list.first` is at most
`windowSize − 1` (this also covers the `ValueError` path, on which the
state at the raise point satisfies the same invariant). -/
theorem add_preserves_invariant (m : TrafficMonitor) (ts : Int)
    (hInv : Inv5 m) (hw : 1 ≤ m.w_size) :
    Inv5 (m.add ts).st ∧
      lastTs (m.add ts).st.ts_list - firstTs (m.add ts).st.ts_list ≤ m.w_size - 1 := by
  obtain ⟨hs, hk1, hk2, hnd, hsum⟩ := hInv
  set m0 : TrafficMonitor :=
    { m with
      ts_list := if ts ∈ m.ts_list then m.ts_list else insort ts m.ts_list
      d := dUpdate m.d ts
      hits := m.hits + 1 } with hm0
  have hInv0 : Inv5 m0 := by
    by_cases hmem : ts ∈ m.ts_list
    · have hkd : ts ∈ dKeys m.d := hk2 hmem
      refine ⟨by simpa [hm0, hmem] using hs, ?_, ?_, ?_, ?_⟩
      · simpa [hm0, hmem, dKeys_dUpdate_of_mem hkd] using hk1
      · simpa [hm0, hmem, dKeys_dUpdate_of_mem hkd] using hk2
      · simpa [hm0, dKeys_dUpdate_of_mem hkd] using hnd
      · simp [hm0, dSum_dUpdate, hsum]
    · have hkd : ts ∉ dKeys m.d := fun hx => hmem (hk1 hx)
      refine ⟨by simpa [hm0, hmem] using sortedLt_insort hs hmem, ?_, ?_, ?_, ?_⟩
      · intro x hx
        rw [hm0]
        simp only [if_neg hmem]
        rw [dKeys_dUpdate_of_not_mem hkd] at hx
        rcases List.mem_append.mp hx with hx | hx
        · exact mem_insort.mpr (Or.inr (hk1 hx))
        · exact mem_insort.mpr (Or.inl (List.mem_singleton.mp hx))
      · intro x hx
        rw [hm0] at hx
        simp only [if_neg hmem] at hx
        rw [show m0.d = dUpdate m.d ts from rfl, dKeys_dUpdate_of_not_mem hkd]
        rcases mem_insort.mp hx with rfl | hx
        · exact List.mem_append.mpr (Or.inr (List.mem_singleton.mpr rfl))
        · exact List.mem_append.mpr (Or.inl (hk2 hx))
      · rw [show m0.d = dUpdate m.d ts from rfl, dKeys_dUpdate_of_not_mem hkd]
        simp [List.nodup_append, hnd, hkd]
      · simp [hm0, dSum_dUpdate, hsum]
  have hInv1 : Inv5 m0.evict := evictGo_inv _ hInv0
  have hspan1 : m0.evict.window_size ≤ m0.w_size - 1 :=
    evictGo_span _ m0 (le_refl _) (by simpa [hm0] using hw)
  have hadd : m.add ts = m0.check ts := by
    simp only [TrafficMonitor.add, hm0]
  obtain ⟨b, hb⟩ := check_st m0 ts
  rw [hadd]
  constructor
  · rw [hb]
    exact ⟨hInv1.1, hInv1.2.1, hInv1.2.2.1, hInv1.2.2.2.1, hInv1.2.2.2.2⟩
  · rw [hb]
    have : m0.w_size = m.w_size := by simp [hm0]
    rw [← this]
    simpa [TrafficMonitor.window_size] using hspan1

/-- Witness for C5 at a concrete state and timestamp. -/
theorem add_preserves_invariant_witness :
    Inv5 ((TrafficMonitor.mk 2 [5] [(5, 2)] 2 2 false 1 [(0, 0)]).add 6).st ∧
      lastTs ((TrafficMonitor.mk 2 [5] [(5, 2)] 2 2 false 1 [(0, 0)]).add 6).st.ts_list -
          firstTs ((TrafficMonitor.mk 2 [5] [(5, 2)] 2 2 false 1 [(0, 0)]).add 6).st.ts_list ≤
        (TrafficMonitor.mk 2 [5] [(5, 2)] 2 2 false 1 [(0, 0)]).w_size - 1 :=
  add_preserves_invariant (TrafficMonitor.mk 2 [5] [(5, 2)] 2 2 false 1 [(0, 0)]) 6
    ⟨by decide, by decide, by decide, by decide, by decide⟩ (by decide)

/-! ## Claim C1: window exactness for in-order streams -/

theorem lastTs_concat (l : List Int) (a : Int) : lastTs (l ++ [a]) = a := by
  simp [lastTs]

theorem lastTs_cons_of_ne {t : Int} {rest : List Int} (h : rest ≠ []) :
    lastTs (t :: rest) = lastTs rest := by
  cases rest with
  | nil => exact absurd rfl h
  | cons c rest' => simp [lastTs]

theorem lastTs_mem : ∀ {l : List Int}, l ≠ [] → lastTs l ∈ l := by
  intro l
  induction l with
  | nil => intro h; exact absurd rfl h
  | cons a l ih =>
    intro _
    cases hl : l with
    | nil => simp [lastTs]
    | cons b l' =>
      rw [← hl, lastTs_cons_of_ne (by rw [hl]; exact List.cons_ne_nil b l')]
      exact List.mem_cons_of_mem a (ih (by rw [hl]; exact List.cons_ne_nil b l'))

theorem sortedLt_first_le {l : List Int} (hs : sortedLt l = true) :
    ∀ t ∈ l, firstTs l ≤ t := by
  cases l with
  | nil => intro t ht; cases ht
  | cons a l' =>
    intro t ht
    rcases List.mem_cons.mp ht with rfl | ht
    · simp [firstTs]
    · simp only [firstTs, List.head?_cons, Option.getD_some]
      exact le_of_lt (sortedLt_head_lt hs t ht)

theorem insort_append_of_le {a : Int} :
    ∀ {l : List Int}, (∀ x ∈ l, x ≤ a) → insort a l = l ++ [a] := by
  intro l
  induction l with
  | nil => intro _; rfl
  | cons b l ih =>
    intro h
    have hb : ¬ a < b := not_lt.mpr (h b (List.mem_cons_self b l))
    simp only [insort, if_neg hb, List.cons_append]
    rw [ih (fun x hx => h x (List.mem_cons_of_mem b hx))]

theorem dGetD_dUpdate_self {α : Type} [DecidableEq α] (d : List (α × Int)) (k : α) :
    dGetD (dUpdate d k) k = dGetD d k + 1 := by
  induction d with
  | nil => simp [dUpdate, dGetD]
  | cons p rest ih =>
    obtain ⟨a, v⟩ := p
    by_cases hak : a = k
    · subst hak
      simp [dUpdate, dGetD]
    · simp [dUpdate, dGetD, if_neg hak, ih]

theorem dGetD_dUpdate_ne {α : Type} [DecidableEq α] {d : List (α × Int)} {k t : α}
    (h : t ≠ k) : dGetD (dUpdate d k) t = dGetD d t := by
  have h' : ¬ k = t := fun hh => h hh.symm
  induction d with
  | nil => simp [dUpdate, dGetD, h']
  | cons p rest ih =>
    obtain ⟨a, v⟩ := p
    by_cases hak : a = k
    · subst hak
      have : ¬ a = t := fun hh => h hh.symm
      simp [dUpdate, dGetD, this]
    · by_cases hat : a = t
      · subst hat
        simp [dUpdate, dGetD, if_neg hak]
      · simp [dUpdate, dGetD, if_neg hak, if_neg hat, ih]

theorem dGetD_dErase_ne {α : Type} [DecidableEq α] {d : List (α × Int)} {k t : α}
    (h : t ≠ k) : dGetD (dErase d k) t = dGetD d t := by
  induction d with
  | nil => rfl
  | cons p rest ih =>
    obtain ⟨a, v⟩ := p
    by_cases hak : a = k
    · subst hak
      have : ¬ a = t := fun hh => h hh.symm
      simp [dErase, dGetD, this]
    · by_cases hat : a = t
      · subst hat
        simp [dErase, dGetD, if_neg hak]
      · simp [dErase, dGetD, if_neg hak, if_neg hat, ih]

theorem length_filter_cons_mem (t0 : Int) (rest : List Int) (h : t0 ∉ rest) :
    ∀ (l' : List Int),
      (l'.filter (fun t => decide (t ∈ t0 :: rest))).length =
        (l'.filter (fun t => decide (t ∈ rest))).length + l'.count t0 := by
  intro l'
  induction l' with
  | nil => rfl
  | cons x l' ih =>
    rw [List.filter_cons, List.filter_cons, List.count_cons]
    by_cases hx : x = t0
    · subst hx
      rw [if_pos (show decide (x ∈ x :: rest) = true by simp),
          if_neg (show ¬ decide (x ∈ rest) = true by simpa using h),
          if_pos (show (x == x) = true by simp)]
      rw [List.length_cons, ih]
      omega
    · have hbe : ¬ (x == t0) = true := by
        simp [hx]
      rw [if_neg hbe]
      by_cases h2 : x ∈ rest
      · rw [if_pos (show decide (x ∈ t0 :: rest) = true by
              simp [List.mem_cons, h2]),
            if_pos (show decide (x ∈ rest) = true by simpa using h2)]
        rw [List.length_cons, List.length_cons, ih]
        omega
      · rw [if_neg (show ¬ decide (x ∈ t0 :: rest) = true by
              simp [List.mem_cons, hx, h2]),
            if_neg (show ¬ decide (x ∈ rest) = true by simpa using h2)]
        rw [ih]
        omega

/-- Non-decreasing list of timestamps (an in-order stream). -/
def sortedLe : List Int → Bool
  | [] => true
  | [_] => true
  | a :: b :: l => decide (a ≤ b) && sortedLe (b :: l)

theorem sortedLe_tail {a : Int} {l : List Int} (h : sortedLe (a :: l) = true) :
    sortedLe l = true := by
  cases l with
  | nil => rfl
  | cons b l' =>
    have h' := h
    simp only [sortedLe, Bool.and_eq_true, decide_eq_true_eq] at h'
    exact h'.2

theorem sortedLe_head_le {a : Int} {l : List Int} (h : sortedLe (a :: l) = true) :
    ∀ b ∈ l, a ≤ b := by
  induction l generalizing a with
  | nil => intro b hb; cases hb
  | cons c l' ih =>
    intro b hb
    have h' : a ≤ c ∧ sortedLe (c :: l') = true := by
      simpa [sortedLe] using h
    rcases List.mem_cons.mp hb with rfl | hb
    · exact h'.1
    · exact le_trans h'.1 (ih h'.2 b hb)

theorem sortedLe_cons {b : Int} {l : List Int} :
    sortedLe (b :: l) = true ↔ (∀ x ∈ l, b ≤ x) ∧ sortedLe l = true := by
  constructor
  · intro h
    exact ⟨sortedLe_head_le h, sortedLe_tail h⟩
  · rintro ⟨h1, h2⟩
    cases l with
    | nil => rfl
    | cons c l' =>
      simp only [sortedLe, Bool.and_eq_true, decide_eq_true_eq]
      exact ⟨h1 c (List.mem_cons_self c l'), h2⟩

theorem sortedLe_le_last : ∀ {l : List Int}, sortedLe l = true → ∀ x ∈ l, x ≤ lastTs l := by
  intro l
  induction l with
  | nil => intro _ x hx; cases hx
  | cons a l ih =>
    intro h x hx
    cases l with
    | nil =>
      rcases List.mem_cons.mp hx with rfl | hx
      · simp [lastTs]
      · cases hx
    | cons b l' =>
      rw [lastTs_cons_of_ne (List.cons_ne_nil b l')]
      rcases List.mem_cons.mp hx with rfl | hx
      · have hab : x ≤ b := sortedLe_head_le h b (List.mem_cons_self b l')
        have hbl : b ≤ lastTs (b :: l') := ih (sortedLe_tail h) b (List.mem_cons_self b l')
        exact le_trans hab hbl
      · exact ih (sortedLe_tail h) x hx

theorem sortedLe_append {l : List Int} {a : Int}
    (h : sortedLe (l ++ [a]) = true) : sortedLe l = true ∧ ∀ x ∈ l, x ≤ a := by
  induction l with
  | nil => exact ⟨rfl, fun x hx => absurd hx (List.not_mem_nil x)⟩
  | cons b l ih =>
    rw [List.cons_append, sortedLe_cons] at h
    obtain ⟨hble, hrest⟩ := h
    obtain ⟨ih1, ih2⟩ := ih hrest
    refine ⟨sortedLe_cons.mpr ⟨?_, ih1⟩, ?_⟩
    · intro x hx
      exact hble x (List.mem_append.mpr (Or.inl hx))
    · intro x hx
      rcases List.mem_cons.mp hx with rfl | hx
      · exact hble a (List.mem_append.mpr (Or.inr (List.mem_singleton.mpr rfl)))
      · exact ih2 x hx

theorem addSeq_singleton (m : TrafficMonitor) (a : Int) :
    m.addSeq [a] = m.add a := by
  show (if (m.add a).err then m.add a
    else Step.mk ((m.add a).st.addSeq []).st ((m.add a).out ++ ((m.add a).st.addSeq []).out)
      ((m.add a).st.addSeq []).err) = m.add a
  by_cases he : (m.add a).err
  · rw [if_pos he]
  · rw [if_neg he]
    show Step.mk (m.add a).st ((m.add a).out ++ []) false = m.add a
    rw [List.append_nil]
    have : (m.add a).err = false := Bool.not_eq_true _ ▸ by simpa using he
    calc Step.mk (m.add a).st (m.add a).out false
        = Step.mk (m.add a).st (m.add a).out (m.add a).err := by rw [this]
      _ = m.add a := rfl

theorem popFront_eq {m : TrafficMonitor} {t0 : Int} {rest : List Int}
    (hts : m.ts_list = t0 :: rest) :
    m.popFront = { m with
      ooo_buffer := oooPush m.ooo_buffer_size m.ooo_buffer (t0, dGetD m.d t0)
      hits := m.hits - dGetD m.d t0
      d := dErase m.d t0
      ts_list := rest } := by
  obtain ⟨w, tl, d, hh, mx, wn, nb, buf⟩ := m
  simp only at hts
  subst hts
  simp [TrafficMonitor.popFront]

/-- Behaviour of the eviction loop on a window whose buckets record the
per-timestamp hit counts of a history `l'`: the loop keeps a suffix of the
sorted window, every dropped timestamp lies at least `windowSize` behind
the head, and the running total remains the number of history hits at
retained timestamps. -/
theorem evictGo_exact (l' : List Int) :
    ∀ (fuel : Nat) (m : TrafficMonitor),
      m.ts_list.length ≤ fuel →
      sortedLt m.ts_list = true →
      m.ts_list ≠ [] →
      1 ≤ m.w_size →
      (∀ t, t ∈ dKeys m.d ↔ t ∈ m.ts_list) →
      (dKeys m.d).Nodup →
      (∀ t ∈ m.ts_list, dGetD m.d t = (l'.count t : Int)) →
      m.hits = ((l'.filter (fun t => decide (t ∈ m.ts_list))).length : Int) →
      sortedLt (TrafficMonitor.evictGo fuel m).ts_list = true ∧
      (TrafficMonitor.evictGo fuel m).ts_list ≠ [] ∧
      lastTs (TrafficMonitor.evictGo fuel m).ts_list = lastTs m.ts_list ∧
      (∀ t ∈ (TrafficMonitor.evictGo fuel m).ts_list, t ∈ m.ts_list) ∧
      (∀ t ∈ m.ts_list, t ∉ (TrafficMonitor.evictGo fuel m).ts_list →
        t ≤ lastTs m.ts_list - m.w_size) ∧
      (∀ t, t ∈ dKeys (TrafficMonitor.evictGo fuel m).d ↔
        t ∈ (TrafficMonitor.evictGo fuel m).ts_list) ∧
      (dKeys (TrafficMonitor.evictGo fuel m).d).Nodup ∧
      (∀ t ∈ (TrafficMonitor.evictGo fuel m).ts_list,
        dGetD (TrafficMonitor.evictGo fuel m).d t = (l'.count t : Int)) ∧
      (TrafficMonitor.evictGo fuel m).hits =
        ((l'.filter (fun t =>
          decide (t ∈ (TrafficMonitor.evictGo fuel m).ts_list))).length : Int) := by
  intro fuel
  induction fuel with
  | zero =>
    intro m hlen _ hne _ _ _ _ _
    exact absurd (List.eq_nil_of_length_eq_zero (Nat.le_zero.mp hlen)) hne
  | succ fuel ih =>
    intro m hlen hs hne hw hkeys hnd hcount hhits
    simp only [TrafficMonitor.evictGo]
    by_cases hc : m.window_size > m.w_size - 1
    · have hred : (if m.window_size > m.w_size - 1
          then TrafficMonitor.evictGo fuel m.popFront else m) =
          TrafficMonitor.evictGo fuel m.popFront := if_pos hc
      simp only [hred]
      cases hts : m.ts_list with
      | nil => exact absurd hts hne
      | cons t0 rest =>
        have hsrt : sortedLt (t0 :: rest) = true := hts ▸ hs
        have hrest : rest ≠ [] := by
          intro hrnil
          have h0 : m.window_size = 0 := by
            simp [TrafficMonitor.window_size, hts, hrnil, lastTs, firstTs]
          omega
        have hlastm : lastTs m.ts_list = lastTs rest := by
          rw [hts, lastTs_cons_of_ne hrest]
        have ht0rest : t0 ∉ rest := fun hmem =>
          absurd rfl (ne_of_gt (sortedLt_head_lt hsrt t0 hmem))
        have ht0mem : t0 ∈ m.ts_list := by
          rw [hts]
          exact List.mem_cons_self t0 rest
        have ht0bound : t0 ≤ lastTs m.ts_list - m.w_size := by
          have hfw : m.window_size = lastTs m.ts_list - t0 := by
            simp [TrafficMonitor.window_size, hts, firstTs]
          omega
        rw [popFront_eq hts]
        set P : TrafficMonitor := { m with
          ooo_buffer := oooPush m.ooo_buffer_size m.ooo_buffer (t0, dGetD m.d t0)
          hits := m.hits - dGetD m.d t0
          d := dErase m.d t0
          ts_list := rest } with hP
        have hPlen : P.ts_list.length ≤ fuel := by
          have : m.ts_list.length = rest.length + 1 := by
            rw [hts]
            rfl
          simp only [hP]
          omega
        have hPs : sortedLt P.ts_list = true := sortedLt_tail hsrt
        have hPkeys : ∀ t, t ∈ dKeys P.d ↔ t ∈ P.ts_list := by
          intro t
          simp only [hP]
          constructor
          · intro hx
            have hxd : t ∈ dKeys m.d := (dKeys_dErase_sublist m.d t0).subset hx
            have hxl : t ∈ t0 :: rest := hts ▸ (hkeys t).mp hxd
            rcases List.mem_cons.mp hxl with rfl | hxr
            · exact absurd hx (not_mem_dKeys_dErase hnd)
            · exact hxr
          · intro hx
            have hne2 : t ≠ t0 := fun heq =>
              ht0rest (heq ▸ hx)
            have hxd : t ∈ dKeys m.d := (hkeys t).mpr (by
              rw [hts]
              exact List.mem_cons_of_mem t0 hx)
            exact mem_dKeys_dErase_of_ne hne2 hxd
        have hPnd : (dKeys P.d).Nodup :=
          List.Nodup.sublist (dKeys_dErase_sublist m.d t0) hnd
        have hPcount : ∀ t ∈ P.ts_list, dGetD P.d t = (l'.count t : Int) := by
          intro t htr
          simp only [hP] at htr ⊢
          have hne2 : t ≠ t0 := fun heq => ht0rest (heq ▸ htr)
          rw [dGetD_dErase_ne hne2]
          exact hcount t (by
            rw [hts]
            exact List.mem_cons_of_mem t0 htr)
        have hPhits : P.hits =
            ((l'.filter (fun t => decide (t ∈ P.ts_list))).length : Int) := by
          have hsplit := length_filter_cons_mem t0 rest ht0rest l'
          have hcnt0 : dGetD m.d t0 = (l'.count t0 : Int) := hcount t0 ht0mem
          have hhits' : m.hits =
              ((l'.filter (fun t => decide (t ∈ t0 :: rest))).length : Int) := by
            rw [← hts]
            exact hhits
          simp only [hP]
          omega
        obtain ⟨g1, g2, g3, g4, g5, g6, g7, g8, g9⟩ :=
          ih P hPlen hPs hrest (by simpa [hP] using hw) hPkeys hPnd hPcount hPhits
        refine ⟨g1, g2, ?_, ?_, ?_, g6, g7, g8, g9⟩
        · rw [g3]
          exact (lastTs_cons_of_ne hrest).symm
        · intro t ht
          exact List.mem_cons_of_mem t0 (g4 t ht)
        · intro t htm htn
          rcases List.mem_cons.mp htm with rfl | htr
          · rw [hts] at ht0bound
            exact ht0bound
          · have hb := g5 t htr htn
            rw [lastTs_cons_of_ne hrest]
            exact hb
    · have hred : (if m.window_size > m.w_size - 1
          then TrafficMonitor.evictGo fuel m.popFront else m) = m := if_neg hc
      simp only [hred]
      exact ⟨hs, hne, by trivial, fun t ht => ht, fun t ht htn => absurd ht htn,
        hkeys, hnd, hcount, hhits⟩

/-- Invariant tying a monitor state to the in-order history `l` that
produced it: the retained window is exactly the distinct history
timestamps within `windowSize` of the head, buckets count history hits,
and the running total is the number of history hits in the window. -/
def InvH (w : Int) (l : List Int) (m : TrafficMonitor) : Prop :=
  m.w_size = w ∧
  sortedLt m.ts_list = true ∧
  (∀ t, t ∈ m.ts_list ↔ (t ∈ l ∧ lastTs l - w < t)) ∧
  m.ts_list ≠ [] ∧
  lastTs m.ts_list = lastTs l ∧
  (∀ t, t ∈ dKeys m.d ↔ t ∈ m.ts_list) ∧
  (dKeys m.d).Nodup ∧
  (∀ t ∈ m.ts_list, dGetD m.d t = (l.count t : Int)) ∧
  m.hits = ((l.filter (fun t => decide (lastTs l - w < t))).length : Int)

/-- When the inserted timestamp is the retained head after eviction, the
disorder branch of `check` is skipped and no `ValueError` can occur. -/
theorem check_err_of_last (m : TrafficMonitor) (ts : Int)
    (h : ts = lastTs m.evict.ts_list) : (m.check ts).err = false := by
  unfold TrafficMonitor.check
  have hng : ¬ (m.evict.warn = false ∧ ts ≠ lastTs m.evict.ts_list) := by
    rintro ⟨_, hne⟩
    exact hne h
  rw [if_neg hng]

theorem add_step_inorder (w : Int) (l : List Int) (m : TrafficMonitor) (a : Int)
    (hw : 1 ≤ w) (hInv : InvH w l m) (hne : l ≠ [])
    (ha : ∀ x ∈ l, x ≤ a) (hmax : ∀ x ∈ l, x ≤ lastTs l) :
    (m.add a).err = false ∧ InvH w (l ++ [a]) (m.add a).st := by
  obtain ⟨hwz, hs, hmem, hnemp, hlast, hkeys, hnd, hcount, hhits⟩ := hInv
  have hLmem : lastTs l ∈ l := lastTs_mem hne
  have hLa : lastTs l ≤ a := ha (lastTs l) hLmem
  set tsl0 : List Int := if a ∈ m.ts_list then m.ts_list else insort a m.ts_list
    with htsl0
  set m0 : TrafficMonitor :=
    { m with ts_list := tsl0, d := dUpdate m.d a, hits := m.hits + 1 } with hm0
  have hcore : sortedLt tsl0 = true ∧
      (∀ t, t ∈ tsl0 ↔ (t ∈ l ++ [a] ∧ lastTs l - w < t)) ∧
      lastTs tsl0 = a ∧ tsl0 ≠ [] ∧ a ∈ tsl0 ∧
      (∀ t, t ∈ dKeys (dUpdate m.d a) ↔ t ∈ tsl0) ∧
      (dKeys (dUpdate m.d a)).Nodup ∧
      (∀ t ∈ tsl0, dGetD (dUpdate m.d a) t = ((l ++ [a]).count t : Int)) := by
    by_cases hmemA : a ∈ m.ts_list
    · have hAl : a ∈ l ∧ lastTs l - w < a := (hmem a).mp hmemA
      have haL : a = lastTs l := le_antisymm (hmax a hAl.1) hLa
      have hkd : a ∈ dKeys m.d := (hkeys a).mpr hmemA
      have htsl : tsl0 = m.ts_list := by
        rw [htsl0, if_pos hmemA]
      refine ⟨by rw [htsl]; exact hs, ?_, ?_, by rw [htsl]; exact hnemp,
        by rw [htsl]; exact hmemA, ?_, ?_, ?_⟩
      · intro t
        rw [htsl]
        constructor
        · intro ht
          obtain ⟨h1, h2⟩ := (hmem t).mp ht
          exact ⟨List.mem_append.mpr (Or.inl h1), h2⟩
        · rintro ⟨h1, h2⟩
          rcases List.mem_append.mp h1 with h1 | h1
          · exact (hmem t).mpr ⟨h1, h2⟩
          · rw [List.mem_singleton.mp h1]
            exact hmemA
      · rw [htsl, hlast]
        exact haL.symm
      · intro t
        rw [htsl, dKeys_dUpdate_of_mem hkd]
        exact hkeys t
      · rw [dKeys_dUpdate_of_mem hkd]
        exact hnd
      · intro t ht
        rw [htsl] at ht
        by_cases hta : t = a
        · subst hta
          rw [dGetD_dUpdate_self, hcount t ht, List.count_append]
          simp
        · rw [dGetD_dUpdate_ne hta, hcount t ht, List.count_append]
          have : List.count t [a] = 0 := by
            simp [List.count_singleton, Ne.symm, hta]
          omega
    · have hal : a ∉ l := by
        intro hal
        have haL : a = lastTs l := le_antisymm (hmax a hal) hLa
        have : a ∈ m.ts_list := by
          rw [haL, ← hlast]
          exact lastTs_mem hnemp
        exact hmemA this
      have hkd : a ∉ dKeys m.d := fun hx => hmemA ((hkeys a).mp hx)
      have hle : ∀ x ∈ m.ts_list, x ≤ a := fun x hx => ha x ((hmem x).mp hx).1
      have hins : insort a m.ts_list = m.ts_list ++ [a] := insort_append_of_le hle
      have htsl : tsl0 = m.ts_list ++ [a] := by
        rw [htsl0, if_neg hmemA, hins]
      refine ⟨?_, ?_, by rw [htsl]; exact lastTs_concat _ _, by simp [htsl], ?_, ?_, ?_, ?_⟩
      · rw [htsl, ← hins]
        exact sortedLt_insort hs hmemA
      · intro t
        rw [htsl]
        constructor
        · intro ht
          rcases List.mem_append.mp ht with ht | ht
          · obtain ⟨h1, h2⟩ := (hmem t).mp ht
            exact ⟨List.mem_append.mpr (Or.inl h1), h2⟩
          · rw [List.mem_singleton.mp ht]
            exact ⟨List.mem_append.mpr (Or.inr (List.mem_singleton.mpr rfl)), by omega⟩
        · rintro ⟨h1, h2⟩
          rcases List.mem_append.mp h1 with h1 | h1
          · exact List.mem_append.mpr (Or.inl ((hmem t).mpr ⟨h1, h2⟩))
          · exact List.mem_append.mpr (Or.inr h1)
      · rw [htsl]
        exact List.mem_append.mpr (Or.inr (List.mem_singleton.mpr rfl))
      · intro t
        rw [htsl, dKeys_dUpdate_of_not_mem hkd]
        constructor
        · intro ht
          rcases List.mem_append.mp ht with ht | ht
          · exact List.mem_append.mpr (Or.inl ((hkeys t).mp ht))
          · exact List.mem_append.mpr (Or.inr ht)
        · intro ht
          rcases List.mem_append.mp ht with ht | ht
          · exact List.mem_append.mpr (Or.inl ((hkeys t).mpr ht))
          · exact List.mem_append.mpr (Or.inr ht)
      · rw [dKeys_dUpdate_of_not_mem hkd]
        simp [List.nodup_append, hnd, hkd]
      · intro t ht
        by_cases hta : t = a
        · subst hta
          rw [dGetD_dUpdate_self, dGetD_eq_zero hkd, List.count_append]
          have h1 : List.count t l = 0 := List.count_eq_zero.mpr hal
          simp [h1]
        · rw [htsl] at ht
          rcases List.mem_append.mp ht with ht | ht
          · rw [dGetD_dUpdate_ne hta, hcount t ht, List.count_append]
            have : List.count t [a] = 0 := by
              simp [List.count_singleton, Ne.symm, hta]
            omega
          · exact absurd (List.mem_singleton.mp ht) hta
  obtain ⟨hs0, hmem0, hlast0, hne0, haIn0, hkeys0, hnd0, hcount0⟩ := hcore
  have hhits0 : m0.hits = (((l ++ [a]).filter
      (fun t => decide (t ∈ tsl0))).length : Int) := by
    have hfc : l.filter (fun t => decide (t ∈ tsl0)) =
        l.filter (fun t => decide (lastTs l - w < t)) := by
      apply List.filter_congr
      intro t htl
      have : (t ∈ tsl0) ↔ (lastTs l - w < t) := by
        constructor
        · intro h1
          exact ((hmem0 t).mp h1).2
        · intro h1
          exact (hmem0 t).mpr ⟨List.mem_append.mpr (Or.inl htl), h1⟩
      simp [this]
    have hfa : (l ++ [a]).filter (fun t => decide (t ∈ tsl0)) =
        l.filter (fun t => decide (t ∈ tsl0)) ++ [a] := by
      rw [List.filter_append]
      congr 1
      simp [haIn0]
    rw [hfa, hfc]
    simp only [hm0, List.length_append, List.length_singleton]
    push_cast
    omega
  have hw0 : 1 ≤ m0.w_size := by
    simpa [hm0, hwz] using hw
  obtain ⟨g1, g2, g3, g4, g5, g6, g7, g8, g9⟩ :=
    evictGo_exact (l ++ [a]) m0.ts_list.length m0 (le_refl _)
      (by simpa [hm0] using hs0) (by simpa [hm0] using hne0) hw0
      (by simpa [hm0] using hkeys0) (by simpa [hm0] using hnd0)
      (by simpa [hm0] using hcount0) (by simpa [hm0] using hhits0)
  have hspan := evictGo_span m0.ts_list.length m0 (le_refl _) hw0
  have hlastE : lastTs (TrafficMonitor.evictGo m0.ts_list.length m0).ts_list = a := by
    rw [g3]
    simpa [hm0] using hlast0
  have hadd : m.add a = m0.check a := by
    rw [TrafficMonitor.add, hm0, htsl0]
  have hEvict : m0.evict = TrafficMonitor.evictGo m0.ts_list.length m0 := rfl
  have herr : (m0.check a).err = false := by
    apply check_err_of_last
    rw [hEvict, hlastE]
  obtain ⟨b, hb⟩ := check_st m0 a
  rw [hEvict] at hb
  set E : TrafficMonitor := TrafficMonitor.evictGo m0.ts_list.length m0 with hE
  have hmemE : ∀ t, t ∈ E.ts_list ↔ (t ∈ l ++ [a] ∧ lastTs (l ++ [a]) - w < t) := by
    intro t
    rw [lastTs_concat]
    constructor
    · intro ht
      have htm0 : t ∈ m0.ts_list := g4 t ht
      have h1 : t ∈ l ++ [a] := ((hmem0 t).mp (by simpa [hm0] using htm0)).1
      have hfirst : firstTs E.ts_list ≤ t := sortedLt_first_le g1 t ht
      have hwspan : lastTs E.ts_list - firstTs E.ts_list ≤ m0.w_size - 1 := hspan
      have hwE : m0.w_size = w := by
        simp [hm0, hwz]
      rw [hlastE, hwE] at hwspan
      exact ⟨h1, by omega⟩
    · rintro ⟨h1, h2⟩
      have htm0 : t ∈ m0.ts_list := by
        have : lastTs l - w < t := by omega
        simpa [hm0] using (hmem0 t).mpr ⟨h1, this⟩
      by_contra htn
      have := g5 t htm0 htn
      have hwE : m0.w_size = w := by
        simp [hm0, hwz]
      rw [hwE] at this
      have hlastm0 : lastTs m0.ts_list = a := by
        simpa [hm0] using hlast0
      rw [hlastm0] at this
      omega
  refine ⟨by rw [hadd]; exact herr, ?_⟩
  rw [hadd, hb]
  refine ⟨?_, g1, hmemE, g2, ?_, g6, g7, ?_, ?_⟩
  · show E.w_size = w
    have h1 := (evictGo_fields m0.ts_list.length m0).1
    rw [← hE] at h1
    rw [h1]
    simp [hm0, hwz]
  · show lastTs E.ts_list = lastTs (l ++ [a])
    rw [hlastE, lastTs_concat]
  · show ∀ t ∈ E.ts_list, dGetD E.d t = ((l ++ [a]).count t : Int)
    exact g8
  · show E.hits = (((l ++ [a]).filter
      (fun t => decide (lastTs (l ++ [a]) - w < t))).length : Int)
    rw [g9]
    congr 1
    have : (l ++ [a]).filter (fun t => decide (t ∈ E.ts_list)) =
        (l ++ [a]).filter (fun t => decide (lastTs (l ++ [a]) - w < t)) := by
      apply List.filter_congr
      intro t htl
      have h1 : (t ∈ E.ts_list) ↔ (lastTs (l ++ [a]) - w < t) := by
        rw [hmemE t]
        constructor
        · intro hh
          exact hh.2
        · intro hh
          exact ⟨htl, hh⟩
      simp [h1]
    rw [this]

theorem add_base (w rate : Int) (n : Nat) (a : Int) (hw : 1 ≤ w) :
    ((TrafficMonitor.init w rate n).add a).err = false ∧
      InvH w [a] ((TrafficMonitor.init w rate n).add a).st := by
  set m0 : TrafficMonitor :=
    { TrafficMonitor.init w rate n with ts_list := [a], d := [(a, 1)], hits := 1 }
    with hm0
  have hadd : (TrafficMonitor.init w rate n).add a = m0.check a := by
    rw [TrafficMonitor.add]
    norm_num [TrafficMonitor.init, insort, dUpdate, hm0]
  have hevict : m0.evict = m0 := by
    show TrafficMonitor.evictGo 1 m0 = m0
    have hws : m0.window_size = 0 := by
      simp [TrafficMonitor.window_size, hm0, lastTs, firstTs]
    have hwz2 : m0.w_size = w := by
      simp [hm0, TrafficMonitor.init]
    simp only [TrafficMonitor.evictGo, hws]
    rw [if_neg (show ¬ ((0 : Int) > m0.w_size - 1) by rw [hwz2]; omega)]
  have herr : (m0.check a).err = false := by
    apply check_err_of_last
    rw [hevict]
    simp [hm0, lastTs]
  obtain ⟨b, hb⟩ := check_st m0 a
  rw [hevict] at hb
  refine ⟨by rw [hadd]; exact herr, ?_⟩
  rw [hadd, hb]
  refine ⟨by simp [hm0, TrafficMonitor.init], by rfl, ?_, by simp, ?_, ?_, ?_, ?_, ?_⟩
  · intro t
    constructor
    · intro ht
      rw [List.mem_singleton.mp ht]
      refine ⟨List.mem_singleton.mpr rfl, ?_⟩
      simp [lastTs]
      omega
    · rintro ⟨h1, _⟩
      exact h1
  · show lastTs [a] = lastTs [a]
    rfl
  · intro t
    show t ∈ dKeys [(a, 1)] ↔ t ∈ [a]
    simp [dKeys]
  · show (dKeys [(a, (1 : Int))]).Nodup
    simp [dKeys]
  · intro t ht
    rw [List.mem_singleton.mp ht]
    show dGetD [(a, 1)] a = (List.count a [a] : Int)
    simp [dGetD, List.count_singleton]
  · show (1 : Int) = (([a].filter (fun t => decide (lastTs [a] - w < t))).length : Int)
    have : lastTs [a] - w < a := by
      simp [lastTs]
      omega
    simp [List.filter_cons, this]

/-- C1: window exactness.  For every configuration with `windowSize ≥ 1`
and every nonempty in-order (non-decreasing) sequence of timestamps fed to
`TrafficMonitor.add`, the run completes without error and the running
total `_hits` equals the exact number of hits whose timestamp lies in
`[head − windowSize + 1, head]`, where `head` is the largest timestamp
inserted so far.  Since every nonempty prefix of an in-order sequence is
again in-order, this gives exactness after each insertion. -/
theorem window_exactness (w rate : Int) (n : Nat) (l : List Int)
    (hw : 1 ≤ w) (hne : l ≠ []) (hmono : sortedLe l = true) :
    ((TrafficMonitor.init w rate n).addSeq l).err = false ∧
    ((TrafficMonitor.init w rate n).addSeq l).st.hits =
      ((l.filter (fun t =>
        decide (lastTs l - w + 1 ≤ t ∧ t ≤ lastTs l))).length : Int) := by
  have main : ∀ (l' : List Int), l' ≠ [] → sortedLe l' = true →
      ((TrafficMonitor.init w rate n).addSeq l').err = false ∧
        InvH w l' ((TrafficMonitor.init w rate n).addSeq l').st := by
    intro l'
    induction l' using List.reverseRecOn with
    | nil => intro h _; exact absurd rfl h
    | append_singleton l'' a ih =>
      intro _ hsort
      obtain ⟨hsort'', hle⟩ := sortedLe_append hsort
      by_cases hl'' : l'' = []
      · subst hl''
        rw [List.nil_append, addSeq_singleton]
        exact add_base w rate n a hw
      · obtain ⟨ihe, ihi⟩ := ih hl'' hsort''
        rw [addSeq_append]
        have hne2 : ¬ ((TrafficMonitor.init w rate n).addSeq l'').err = true := by
          rw [ihe]
          exact Bool.false_ne_true
        rw [if_neg hne2, addSeq_singleton]
        obtain ⟨se, si⟩ := add_step_inorder w l''
          ((TrafficMonitor.init w rate n).addSeq l'').st a hw ihi hl'' hle
          (sortedLe_le_last hsort'')
        exact ⟨se, si⟩
  obtain ⟨he, hi⟩ := main l hne hmono
  refine ⟨he, ?_⟩
  obtain ⟨_, _, _, _, _, _, _, _, hhits⟩ := hi
  rw [hhits]
  have hfeq : l.filter (fun t => decide (lastTs l - w < t)) =
      l.filter (fun t => decide (lastTs l - w + 1 ≤ t ∧ t ≤ lastTs l)) := by
    apply List.filter_congr
    intro t htl
    have h1 : t ≤ lastTs l := sortedLe_le_last hmono t htl
    have h2 : (lastTs l - w < t) ↔ (lastTs l - w + 1 ≤ t ∧ t ≤ lastTs l) := by
      omega
    simp [h2]
  rw [hfeq]

/-- Witness for C1 at a concrete configuration and stream. -/
theorem window_exactness_witness :
    ((TrafficMonitor.init 2 1 1).addSeq [1, 2]).err = false ∧
      ((TrafficMonitor.init 2 1 1).addSeq [1, 2]).st.hits =
        ((([1, 2] : List Int).filter (fun t =>
          decide (lastTs [1, 2] - 2 + 1 ≤ t ∧ t ≤ lastTs [1, 2]))).length : Int) :=
  window_exactness 2 1 1 [1, 2] (by decide) (by decide) (by decide)

/-! ## Claim C6: the disorder re-evaluation algorithm -/

theorem indexOf?_eq_none {a : Int} : ∀ {l : List Int}, indexOf? a l = none ↔ a ∉ l := by
  intro l
  induction l with
  | nil => simp [indexOf?]
  | cons b rest ih =>
    by_cases hb : b = a
    · subst hb
      simp [indexOf?]
    · simp only [indexOf?, if_neg hb, List.mem_cons]
      cases h : indexOf? a rest with
      | none =>
        simp only [h, Option.map_none']
        constructor
        · intro _
          rintro (rfl | hmem)
          · exact hb rfl
          · exact (ih.mp h) hmem
        · intro _
          trivial
      | some j =>
        simp only [h, Option.map_some']
        constructor
        · intro hc
          cases hc
        · intro hc
          exfalso
          apply hc
          right
          by_contra hmem
          rw [ih.mpr hmem] at h
          cases h

theorem indexOf?_lt_length {a : Int} :
    ∀ {l : List Int} {i : Nat}, indexOf? a l = some i → i < l.length := by
  intro l
  induction l with
  | nil => intro i h; cases h
  | cons b rest ih =>
    intro i h
    by_cases hb : b = a
    · rw [indexOf?, if_pos hb] at h
      cases h
      simp
    · rw [indexOf?, if_neg hb] at h
      cases hj : indexOf? a rest with
      | none =>
        rw [hj] at h
        cases h
      | some j =>
        rw [hj] at h
        have : i = j + 1 := by
          simpa using h.symm
        subst this
        have := ih hj
        simp
        omega

theorem lastTs_drop : ∀ {l : List Int} {i : Nat}, i < l.length →
    lastTs (l.drop i) = lastTs l := by
  intro l
  induction l with
  | nil => intro i h; simp at h
  | cons b rest ih =>
    intro i h
    cases i with
    | zero => rfl
    | succ j =>
      have hj : j < rest.length := by
        simpa using h
      have hrest : rest ≠ [] := by
        intro hr
        rw [hr] at hj
        simp at hj
      rw [List.drop_succ_cons, ih hj, lastTs_cons_of_ne hrest]

theorem sortedLt_drop : ∀ {l : List Int} (i : Nat),
    sortedLt l = true → sortedLt (l.drop i) = true := by
  intro l
  induction l with
  | nil => intro i _; simp [sortedLt]
  | cons b rest ih =>
    intro i hs
    cases i with
    | zero => exact hs
    | succ j => exact ih j (sortedLt_tail hs)

theorem drop_indexOf_eq_filter_ge {ts : Int} :
    ∀ {l : List Int}, sortedLt l = true → ∀ {i : Nat}, indexOf? ts l = some i →
      l.drop i = l.filter (fun x => decide (ts ≤ x)) := by
  intro l
  induction l with
  | nil => intro _ i h; cases h
  | cons b rest ih =>
    intro hs i hidx
    by_cases hb : b = ts
    · subst hb
      rw [indexOf?, if_pos rfl] at hidx
      cases hidx
      rw [List.drop_zero, List.filter_cons_of_pos (by simp)]
      congr 1
      symm
      rw [List.filter_eq_self]
      intro x hx
      simp [le_of_lt (sortedLt_head_lt hs x hx)]
    · rw [indexOf?, if_neg hb] at hidx
      cases hj : indexOf? ts rest with
      | none =>
        rw [hj] at hidx
        cases hidx
      | some j =>
        rw [hj] at hidx
        have hij : i = j + 1 := by
          simpa using hidx.symm
        subst hij
        have hmem : ts ∈ rest := by
          by_contra hmem
          rw [indexOf?_eq_none.mpr hmem] at hj
          cases hj
        have hbts : b < ts := sortedLt_head_lt hs ts hmem
        rw [List.drop_succ_cons, List.filter_cons_of_neg (by simp; omega)]
        exact ih (sortedLt_tail hs) hj

theorem drop_succ_indexOf_eq_filter_gt {ts : Int} :
    ∀ {l : List Int}, sortedLt l = true → ∀ {i : Nat}, indexOf? ts l = some i →
      l.drop (i + 1) = l.filter (fun x => decide (ts < x)) := by
  intro l
  induction l with
  | nil => intro _ i h; cases h
  | cons b rest ih =>
    intro hs i hidx
    by_cases hb : b = ts
    · subst hb
      rw [indexOf?, if_pos rfl] at hidx
      cases hidx
      rw [List.drop_succ_cons, List.drop_zero,
        List.filter_cons_of_neg (by simp)]
      symm
      rw [List.filter_eq_self]
      intro x hx
      simp [sortedLt_head_lt hs x hx]
    · rw [indexOf?, if_neg hb] at hidx
      cases hj : indexOf? ts rest with
      | none =>
        rw [hj] at hidx
        cases hidx
      | some j =>
        rw [hj] at hidx
        have hij : i = j + 1 := by
          simpa using hidx.symm
        subst hij
        have hmem : ts ∈ rest := by
          by_contra hmem
          rw [indexOf?_eq_none.mpr hmem] at hj
          cases hj
        have hbts : b < ts := sortedLt_head_lt hs ts hmem
        rw [List.drop_succ_cons, List.filter_cons_of_neg (by simp; omega)]
        exact ih (sortedLt_tail hs) hj

theorem dropLast_eq_filter_lt_last :
    ∀ {l : List Int}, sortedLt l = true →
      l.dropLast = l.filter (fun x => decide (x < lastTs l)) := by
  intro l
  induction l with
  | nil => intro _; rfl
  | cons b rest ih =>
    intro hs
    cases rest with
    | nil =>
      simp [lastTs]
    | cons c rest' =>
      have hcne : (c :: rest') ≠ [] := List.cons_ne_nil c rest'
      have hlast : lastTs (b :: c :: rest') = lastTs (c :: rest') :=
        lastTs_cons_of_ne hcne
      have hblt : b < lastTs (c :: rest') := by
        have h1 : b < c := by
          have := sortedLt_head_lt hs c (List.mem_cons_self c rest')
          exact this
        have h2 : c ≤ lastTs (c :: rest') :=
          sortedLt_first_le (sortedLt_tail hs) (lastTs (c :: rest'))
            (lastTs_mem hcne)
        omega
      show b :: (c :: rest').dropLast = _
      rw [hlast, List.filter_cons_of_pos (by simp [hblt])]
      congr 1
      exact ih (sortedLt_tail hs)

/-- Historical reconstruction exactly as the specification words it
(§4.1 step 4): scan the ledger oldest to newest for the first entry `e`
with `0 < t − e.timestamp < windowSize`; if found at index `i`, evaluate
the threshold at `t` with `totalHits − hitsAfterT + ledgerHitsFromI`,
where `hitsAfterT` sums the buckets of all currently retained timestamps
strictly after `t` and `ledgerHitsFromI` sums the ledger from `i` to the
end; otherwise skip `t` silently. -/
def specDisorderCheck (m : TrafficMonitor) (t : Int) : TrafficMonitor × List Alert :=
  match m.ooo_buffer.findIdx? (fun e => 0 < t - e.1 ∧ t - e.1 < m.w_size) with
  | none => (m, [])
  | some i =>
    let hitsAfterT := ((m.ts_list.filter (fun x => decide (t < x))).map (dGetD m.d)).sum
    let ledgerFromI := ((m.ooo_buffer.drop i).map (fun p => p.2)).sum
    m.check_hits t (m.hits - hitsAfterT + ledgerFromI)

def specStep (p : TrafficMonitor × List Alert) (t : Int) : TrafficMonitor × List Alert :=
  let r := specDisorderCheck p.1 t
  (r.1, p.2 ++ r.2)

/-- The re-evaluation pass as the specification words it (§4.1 steps 3-5):
after eviction, when the monitor is unarmed and the inserted timestamp is
not the window head, re-evaluate every retained timestamp from the
inserted one up to but not including the head; in every case finish with a
live threshold evaluation at the head. -/
def specCheck (m : TrafficMonitor) (ts : Int) : TrafficMonitor × List Alert :=
  let m1 := m.evict
  if m1.warn = false ∧ ts ≠ lastTs m1.ts_list then
    let targets := m1.ts_list.filter
      (fun t => decide (ts ≤ t) && decide (t < lastTs m1.ts_list))
    let p := targets.foldl specStep (m1, [])
    let r := p.1.check_hits (lastTs p.1.ts_list) p.1.hits
    (r.1, p.2 ++ r.2)
  else
    m1.check_hits (lastTs m1.ts_list) m1.hits

theorem specDisorderCheck_st (m : TrafficMonitor) (t : Int) :
    ∃ b, (specDisorderCheck m t).1 = { m with warn := b } := by
  unfold specDisorderCheck
  cases m.ooo_buffer.findIdx? (fun e => 0 < t - e.1 ∧ t - e.1 < m.w_size) with
  | none => exact ⟨m.warn, rfl⟩
  | some i => exact check_hits_st m t _

theorem disorder_check_eq_spec (m : TrafficMonitor) (t : Int)
    (hs : sortedLt m.ts_list = true) (hmem : t ∈ m.ts_list) :
    m.disorder_check t = specDisorderCheck m t := by
  unfold TrafficMonitor.disorder_check specDisorderCheck
  cases hfi : m.ooo_buffer.findIdx? (fun e => 0 < t - e.1 ∧ t - e.1 < m.w_size) with
  | none => rfl
  | some i =>
    cases hidx : indexOf? t m.ts_list with
    | none => exact absurd hmem (indexOf?_eq_none.mp hidx)
    | some j =>
      have hdrop : m.ts_list.drop (j + 1) =
          m.ts_list.filter (fun x => decide (t < x)) :=
        drop_succ_indexOf_eq_filter_gt hs hidx
      simp only [Option.getD_some, hdrop]

theorem fold_disorder_eq_spec : ∀ (targets : List Int) (m : TrafficMonitor)
    (acc : List Alert), sortedLt m.ts_list = true →
    (∀ t ∈ targets, t ∈ m.ts_list) →
    targets.foldl disorder_step (m, acc) = targets.foldl specStep (m, acc) := by
  intro targets
  induction targets with
  | nil => intro m acc _ _; rfl
  | cons t ts ih =>
    intro m acc hs hsub
    rw [List.foldl_cons, List.foldl_cons]
    have hstep : disorder_step (m, acc) t = specStep (m, acc) t := by
      show ((m.disorder_check t).1, acc ++ (m.disorder_check t).2) =
        ((specDisorderCheck m t).1, acc ++ (specDisorderCheck m t).2)
      rw [disorder_check_eq_spec m t hs (hsub t (List.mem_cons_self t ts))]
    rw [hstep]
    obtain ⟨b, hb⟩ := specDisorderCheck_st m t
    have hpair : specStep (m, acc) t =
        ({ m with warn := b }, acc ++ (specDisorderCheck m t).2) := by
      show ((specDisorderCheck m t).1, acc ++ (specDisorderCheck m t).2) = _
      rw [hb]
    rw [hpair]
    exact ih { m with warn := b } (acc ++ (specDisorderCheck m t).2) hs
      (fun x hx => hsub x (List.mem_cons_of_mem t hx))

theorem popFront_sorted {m : TrafficMonitor} (hs : sortedLt m.ts_list = true) :
    sortedLt m.popFront.ts_list = true := by
  obtain ⟨w, tl, d, hh, mx, wn, nb, buf⟩ := m
  cases tl with
  | nil => exact hs
  | cons t rest =>
    simp only [TrafficMonitor.popFront]
    exact sortedLt_tail hs

theorem evictGo_sorted : ∀ (fuel : Nat) (m : TrafficMonitor),
    sortedLt m.ts_list = true → sortedLt (TrafficMonitor.evictGo fuel m).ts_list = true := by
  intro fuel
  induction fuel with
  | zero => intro m hs; exact hs
  | succ fuel ih =>
    intro m hs
    simp only [TrafficMonitor.evictGo]
    by_cases hc : m.window_size > m.w_size - 1
    · rw [if_pos hc]
      exact ih m.popFront (popFront_sorted hs)
    · rw [if_neg hc]
      exact hs

theorem check_eq_of_some (m : TrafficMonitor) (ts : Int) (i : Nat)
    (h1 : m.evict.warn = false ∧ ts ≠ lastTs m.evict.ts_list)
    (h2 : indexOf? ts m.evict.ts_list = some i) :
    m.check ts =
      (let targets := (m.evict.ts_list.drop i).dropLast
       let p := targets.foldl disorder_step (m.evict, [])
       let r := p.1.check_hits (lastTs p.1.ts_list) p.1.hits
       Step.mk r.1 (p.2 ++ r.2) false) := by
  unfold TrafficMonitor.check
  rw [if_pos h1, h2]

theorem specCheck_eq_of_branch (m : TrafficMonitor) (ts : Int)
    (h1 : m.evict.warn = false ∧ ts ≠ lastTs m.evict.ts_list) :
    specCheck m ts =
      (let targets := m.evict.ts_list.filter
        (fun t => decide (ts ≤ t) && decide (t < lastTs m.evict.ts_list))
       let p := targets.foldl specStep (m.evict, [])
       let r := p.1.check_hits (lastTs p.1.ts_list) p.1.hits
       (r.1, p.2 ++ r.2)) := by
  unfold specCheck
  rw [if_pos h1]

/-- C6: the disorder re-evaluation algorithm of `check` is exactly the
specification's description: when, after insertion and eviction, the
monitor is unarmed and the inserted timestamp is a retained non-head
timestamp, it re-evaluates (via the ledger scan and the reconstructed
total) every retained timestamp from the inserted one up to but not
including the head; when armed it re-evaluates nothing; and in every such
call a final live-total evaluation runs at the window head — and no
`ValueError` occurs.  The hypotheses ask that `_ts_list` be sorted (an
invariant of every reachable state, claim C5) and that the inserted
timestamp be armed-mode or still retained after eviction (when it was
evicted, the claim's premise "the just-inserted ts is not the latest
retained timestamp" has no referent: that is the crash of claim C4). -/
theorem disorder_reevaluation (m : TrafficMonitor) (ts : Int)
    (hs : sortedLt m.ts_list = true)
    (hcase : m.evict.warn = true ∨ ts ∈ m.evict.ts_list) :
    (m.check ts).err = false ∧
      ((m.check ts).st, (m.check ts).out) = specCheck m ts := by
  have hsE : sortedLt m.evict.ts_list = true :=
    evictGo_sorted m.ts_list.length m hs
  by_cases hbr : m.evict.warn = false ∧ ts ≠ lastTs m.evict.ts_list
  · have hmemE : ts ∈ m.evict.ts_list := by
      rcases hcase with hw | hmem
      · rw [hbr.1] at hw
        cases hw
      · exact hmem
    cases hidx : indexOf? ts m.evict.ts_list with
    | none => exact absurd hmemE (indexOf?_eq_none.mp hidx)
    | some i =>
      have hlt : i < m.evict.ts_list.length := indexOf?_lt_length hidx
      have hdropf : m.evict.ts_list.drop i =
          m.evict.ts_list.filter (fun x => decide (ts ≤ x)) :=
        drop_indexOf_eq_filter_ge hsE hidx
      have hsd : sortedLt (m.evict.ts_list.drop i) = true := sortedLt_drop i hsE
      have hld : lastTs (m.evict.ts_list.drop i) = lastTs m.evict.ts_list :=
        lastTs_drop hlt
      have hslice : (m.evict.ts_list.drop i).dropLast =
          m.evict.ts_list.filter
            (fun t => decide (ts ≤ t) && decide (t < lastTs m.evict.ts_list)) := by
        rw [dropLast_eq_filter_lt_last hsd, hld, hdropf, List.filter_filter]
        apply List.filter_congr
        intro x _
        exact Bool.and_comm _ _
      have hfold : ((m.evict.ts_list.drop i).dropLast).foldl disorder_step
            (m.evict, ([] : List Alert)) =
          (m.evict.ts_list.filter
            (fun t => decide (ts ≤ t) && decide (t < lastTs m.evict.ts_list))).foldl
            specStep (m.evict, []) := by
        rw [hslice]
        apply fold_disorder_eq_spec _ _ _ hsE
        intro t ht
        exact List.mem_of_mem_filter ht
      rw [check_eq_of_some m ts i hbr hidx, specCheck_eq_of_branch m ts hbr]
      refine ⟨rfl, ?_⟩
      simp only [hfold]
  · have hcheck : m.check ts =
        (let r := m.evict.check_hits (lastTs m.evict.ts_list) m.evict.hits
         Step.mk r.1 r.2 false) := by
      unfold TrafficMonitor.check
      rw [if_neg hbr]
    have hspec : specCheck m ts =
        m.evict.check_hits (lastTs m.evict.ts_list) m.evict.hits := by
      unfold specCheck
      rw [if_neg hbr]
    rw [hcheck, hspec]
    exact ⟨rfl, rfl⟩

/-- Witness for C6 at a concrete state in which the inserted timestamp
lands behind the head, survives eviction, and a ledger entry is in range:
the code path and the specification's description coincide. -/
theorem disorder_reevaluation_witness :
    ((TrafficMonitor.mk 3 [1, 2, 4] [(1, 2), (2, 1), (4, 1)] 4 3 false 1
        [(0, 5)]).check 2).err = false ∧
      (((TrafficMonitor.mk 3 [1, 2, 4] [(1, 2), (2, 1), (4, 1)] 4 3 false 1
          [(0, 5)]).check 2).st,
        ((TrafficMonitor.mk 3 [1, 2, 4] [(1, 2), (2, 1), (4, 1)] 4 3 false 1
          [(0, 5)]).check 2).out) =
        specCheck (TrafficMonitor.mk 3 [1, 2, 4] [(1, 2), (2, 1), (4, 1)] 4 3 false 1
          [(0, 5)]) 2 :=
  disorder_reevaluation
    (TrafficMonitor.mk 3 [1, 2, 4] [(1, 2), (2, 1), (4, 1)] 4 3 false 1 [(0, 5)]) 2
    (by decide) (by decide)
